import Mathlib

/-!
# Verification of the sliding-window / stop-and-wait UDP senders

Shallow embedding of the two Python senders
(`sender_fixed_sliding_window_...py` and `sender_stop_and_wait_...py`):
the segmenter, the 4-byte big-endian signed header codec, the UTF-8 body
decoding, the windowed ARQ main loop (packet table, cumulative-ACK
processing, window sliding, retransmission sweep), the teardown handshake,
the metrics formulas, and the stop-and-wait data phase.

Wall-clock timestamps are abstracted to natural numbers; each loop
iteration of the Python code (which calls `time.time()` several times in
quick succession) is given a single abstract timestamp.  Byte strings are
`List Nat` (each entry intended `< 256`).  Python exceptions that escape
`transmit_file` / `send_file` are modelled with `Option`/`Except`.
-/

/-! ## Segmenter

Models the chunking loop of `transmit_file` (sliding-window sender,
lines 45-67) and the inline chunking of `send_file` (stop-and-wait sender,
lines 141-154):

    while position < total_bytes:
        data = contents[position:position + DATA_SIZE]
        ...
        position += len(data)

`segGo` carries a fuel argument so that the definition is structurally
recursive (and hence evaluates by `decide`); fuel equal to the number of
remaining bytes suffices whenever the chunk size is positive, which is the
only case in which the Python loop terminates at all. -/

def segGo (c : Nat) : Nat → Nat → List Nat → List (Nat × List Nat)
  | 0, _, _ => []
  | _ + 1, _, [] => []
  | fuel + 1, pos, b :: bs =>
      (pos, (b :: bs).take c) :: segGo c fuel (pos + ((b :: bs).take c).length) ((b :: bs).drop c)

/-- The segment table: list of (offset, payload) pairs, in file order. -/
def segments (contents : List Nat) (c : Nat) : List (Nat × List Nat) :=
  segGo c contents.length 0 contents

/-! ## Frame header codec

Both senders build frame headers with
`int.to_bytes(seq, 4, signed=True, byteorder='big')` and parse them with
`int.from_bytes(response[:4], signed=True, byteorder='big')`.
`int.to_bytes(..., signed=True)` raises `OverflowError` outside
`[-2^31, 2^31 - 1]`, modelled by `none`. -/

def intToBytes4 (x : Int) : Option (List Nat) :=
  if -(2 ^ 31) ≤ x ∧ x < 2 ^ 31 then
    let u := (x % (2 ^ 32 : Int)).toNat
    some [u / 2 ^ 24 % 256, u / 2 ^ 16 % 256, u / 2 ^ 8 % 256, u % 256]
  else none

/-- Big-endian signed interpretation of an arbitrary-length byte string,
as `int.from_bytes(bs, signed=True, byteorder='big')` (which accepts fewer
than 4 bytes; the empty string yields 0). -/
def intFromBytesBE (bs : List Nat) : Int :=
  let u : Nat := bs.foldl (fun a b => a * 256 + b) 0
  if u < 2 ^ (8 * bs.length - 1) then (u : Int) else (u : Int) - (2 : Int) ^ (8 * bs.length)

/-! ## Body decoding

Both receive paths run `response[SEQ_SIZE:].decode()`, i.e. strict UTF-8
decoding, which raises `UnicodeDecodeError` on invalid input.  `utf8Decode`
is strict UTF-8: multi-byte sequences need the right continuation bytes,
overlong encodings, surrogates and code points above `0x10FFFF` are
rejected. -/

def utf8Cont (b : Nat) : Bool := decide (0x80 ≤ b ∧ b ≤ 0xBF)

def utf8Decode : List Nat → Option (List Char)
  | [] => some []
  | b0 :: rest =>
    if b0 < 0x80 then
      (utf8Decode rest).map (fun cs => Char.ofNat b0 :: cs)
    else if 0xC2 ≤ b0 ∧ b0 ≤ 0xDF then
      match rest with
      | b1 :: rest2 =>
        if utf8Cont b1 then
          (utf8Decode rest2).map (fun cs => Char.ofNat ((b0 - 0xC0) * 0x40 + (b1 - 0x80)) :: cs)
        else none
      | [] => none
    else if 0xE0 ≤ b0 ∧ b0 ≤ 0xEF then
      match rest with
      | b1 :: b2 :: rest3 =>
        if (if b0 = 0xE0 then decide (0xA0 ≤ b1 ∧ b1 ≤ 0xBF)
            else if b0 = 0xED then decide (0x80 ≤ b1 ∧ b1 ≤ 0x9F)
            else utf8Cont b1) ∧ utf8Cont b2 then
          (utf8Decode rest3).map (fun cs =>
            Char.ofNat ((b0 - 0xE0) * 0x1000 + (b1 - 0x80) * 0x40 + (b2 - 0x80)) :: cs)
        else none
      | _ => none
    else if 0xF0 ≤ b0 ∧ b0 ≤ 0xF4 then
      match rest with
      | b1 :: b2 :: b3 :: rest4 =>
        if (if b0 = 0xF0 then decide (0x90 ≤ b1 ∧ b1 ≤ 0xBF)
            else if b0 = 0xF4 then decide (0x80 ≤ b1 ∧ b1 ≤ 0x8F)
            else utf8Cont b1) ∧ utf8Cont b2 ∧ utf8Cont b3 then
          (utf8Decode rest4).map (fun cs =>
            Char.ofNat ((b0 - 0xF0) * 0x40000 + (b1 - 0x80) * 0x1000 + (b2 - 0x80) * 0x40 + (b3 - 0x80)) :: cs)
        else none
      | _ => none
    else none

/-! ## Sliding-window sender: packet table and main loop

`transmit_file` keeps one dict per packet; the `raw` field (header + chunk)
is determined by `sequence` and the chunk, so it is not duplicated here.
Timestamps are abstract naturals; each Python loop iteration gets a single
timestamp covering its several `time.time()` calls. -/

structure Packet where
  sequence : Nat
  length : Nat
  isAcked : Bool
  firstSent : Option Nat
  recentSent : Option Nat
deriving DecidableEq

def mkPacket (seg : Nat × List Nat) : Packet :=
  { sequence := seg.1, length := seg.2.length, isAcked := false,
    firstSent := none, recentSent := none }

def mkPackets (tbl : List (Nat × List Nat)) : List Packet := tbl.map mkPacket

/-- The receiver's next expected byte once this packet has arrived:
`pkt['sequence'] + pkt['length']` (line 111). -/
def Packet.nextExpected (p : Packet) : Int := (p.sequence : Int) + p.length

/-- One packet's view of the cumulative-ACK marking loop (lines 110-120):
`if ack_seq >= next_expected and not pkt['is_acked']` mark it acknowledged
and, when `first_sent` is set, produce the delay sample `now - first_sent`. -/
def markPacket (a : Int) (t : Nat) (p : Packet) : Packet × Option Nat :=
  if p.nextExpected ≤ a ∧ p.isAcked = false then
    ({ p with isAcked := true }, p.firstSent.map (fun f => t - f))
  else (p, none)

/-- The marking loop over the whole table, in index order; the loop touches
each packet once and appends delay samples in index order. -/
def markAll (a : Int) (t : Nat) (pkts : List Packet) : List Packet × List Nat :=
  (pkts.map (fun p => (markPacket a t p).1), pkts.filterMap (fun p => (markPacket a t p).2))

/-- Length of the acknowledged prefix of a packet list. -/
def ackedRunLen : List Packet → Nat
  | [] => 0
  | p :: ps => if p.isAcked then ackedRunLen ps + 1 else 0

/-- The window slide `while left_edge < num and packet_list[left_edge]['is_acked']:
left_edge += 1` (lines 123-125). -/
def slide (pkts : List Packet) (le : Nat) : Nat := le + ackedRunLen (pkts.drop le)

/-- The send loop `for idx in range(lo, hi): if not acked: send; set first_sent
if unset; refresh recent_sent` (lines 137-143); `i` counts the current index.
The initial burst (lines 85-89) has no acknowledged-skip and no
first-sent-if-unset guard, but it runs on a fresh table where both guards are
vacuous, so the same function models it. -/
def sendIdx (t lo hi : Nat) : Nat → List Packet → List Packet
  | _, [] => []
  | i, p :: ps =>
    (if lo ≤ i ∧ i < hi ∧ p.isAcked = false then
      { p with firstSent := some (p.firstSent.getD t), recentSent := some t }
    else p) :: sendIdx t lo hi (i + 1) ps

/-- One packet's view of the retransmission sweep (lines 151-157):
unacknowledged, previously sent, and silent for more than the retransmission
interval means resend and refresh `recent_sent`. -/
def sweepPacket (now retrans : Nat) (p : Packet) : Packet :=
  match p.recentSent with
  | none => p
  | some r =>
    if p.isAcked = false ∧ retrans < now - r then { p with recentSent := some now } else p

/-- The sweep loop over the window `range(left_edge, right_edge)`. -/
def sweepIdx (now retrans lo hi : Nat) : Nat → List Packet → List Packet
  | _, [] => []
  | i, p :: ps =>
    (if lo ≤ i ∧ i < hi then sweepPacket now retrans p else p) ::
      sweepIdx now retrans lo hi (i + 1) ps

/-- Mutable state of the `transmit_file` main loop.  The debug counters
`total_acks` and `resends` never influence behaviour or results and are
omitted. -/
structure SWState where
  pkts : List Packet
  leftEdge : Nat
  sendNext : Nat
  delays : List Nat
  lastCheck : Nat
deriving DecidableEq

/-- The `if ack_msg == 'ack':` block (lines 108-144): mark cumulatively,
slide the left edge, and if it moved clamp `send_next` and transmit the
newly admitted window suffix. -/
def processAck (W : Nat) (st : SWState) (t : Nat) (a : Int) : SWState :=
  let m := markAll a t st.pkts
  let le2 := slide m.1 st.leftEdge
  if st.leftEdge < le2 then
    let sn := if st.sendNext < le2 then le2 else st.sendNext
    let hi := min (le2 + W) m.1.length
    { pkts := sendIdx t sn hi 0 m.1, leftEdge := le2, sendNext := hi,
      delays := st.delays ++ m.2, lastCheck := st.lastCheck }
  else
    { st with pkts := m.1, delays := st.delays ++ m.2 }

/-- Dispatch on the decoded body text: only `'ack'` does anything. -/
def ackDispatch (W : Nat) (st : SWState) (t : Nat) (a : Int) (msg : String) : SWState :=
  if msg = "ack" then processAck W st t a else st

/-- The receive attempt over a raw datagram (lines 103-144): split off the
4-byte header, interpret it signed big-endian, strictly decode the body;
an undecodable body raises `UnicodeDecodeError`, which the `except
socket.timeout` handler does not catch, so it escapes `transmit_file`. -/
def recvStepRaw (W : Nat) (st : SWState) (t : Nat) (raw : List Nat) : Except Unit SWState :=
  match utf8Decode (raw.drop 4) with
  | none => Except.error ()
  | some cs => Except.ok (ackDispatch W st t (intFromBytesBE (raw.take 4)) (String.mk cs))

/-- The receive attempt of one iteration (lines 101-144): a socket timeout
(`e = none`) leaves the state unchanged, a decoded frame is dispatched on
its body text. -/
def recvPhase (W : Nat) (st : SWState) (t : Nat) (e : Option (Int × String)) : SWState :=
  match e with
  | none => st
  | some f => ackDispatch W st t f.1 f.2

/-- The periodic timer check of one iteration (lines 147-160): when the
polling interval has elapsed, sweep the current window and remember the
check time. -/
def timerPhase (W retrans poll : Nat) (st1 : SWState) (t : Nat) : SWState :=
  if poll < t - st1.lastCheck then
    { st1 with
      pkts := sweepIdx t retrans st1.leftEdge (min (st1.leftEdge + W) st1.pkts.length) 0 st1.pkts,
      lastCheck := t }
  else st1

/-- One iteration of the main loop at abstract time `ev.1`: exit check
(`while not all acked`), receive attempt, then the periodic timer check. -/
def swStep (W retrans poll : Nat) (st : SWState) (ev : Nat × Option (Int × String)) : SWState :=
  if st.pkts.all (fun p => p.isAcked) then st
  else timerPhase W retrans poll (recvPhase W st ev.1 ev.2) ev.1

/-- Initial state after the initial burst (lines 78-89): transmit indices
`[0, min(WINDOW, num))`, stamping first/recent send times. -/
def swInit (W t0 : Nat) (pkts0 : List Packet) : SWState :=
  { pkts := sendIdx t0 0 (min W pkts0.length) 0 pkts0, leftEdge := 0,
    sendNext := min W pkts0.length, delays := [], lastCheck := t0 }

/-- The whole data phase as a fold over the received-event trace. -/
def swRun (W retrans poll t0 : Nat) (pkts0 : List Packet)
    (evs : List (Nat × Option (Int × String))) : SWState :=
  evs.foldl (swStep W retrans poll) (swInit W t0 pkts0)

/-- The ACK values carried by the decoded frames of an event trace. -/
def ackVals (evs : List (Nat × Option (Int × String))) : List Int :=
  evs.filterMap (fun ev => match ev.2 with
    | some f => if f.2 = "ack" then some f.1 else none
    | none => none)

/-- The contribution of one received event to packet acknowledgement: an
ACK frame whose echoed offset has reached the packet's next-expected byte. -/
def evAckBit (e : Option (Int × String)) (ne : Int) : Bool :=
  match e with
  | some f => decide (f.2 = "ack") && decide (ne ≤ f.1)
  | none => false

/-- Outstanding packets: transmitted at least once and unacknowledged. -/
def outstandingCount (st : SWState) : Nat :=
  st.pkts.countP (fun p => p.firstSent.isSome && !p.isAcked)

/-! ## Teardown handshake

Lines 166-198 of the sliding-window sender (the stop-and-wait teardown,
lines 160-198, is an identical loop): send the terminal frame, wait for the
matching ACK, then wait for FIN in the same iteration; any timeout or
mismatch starts the iteration over.  Upon FIN, exactly one FINACK is sent
after the loop.  Frames are (header value, body bytes). -/

def finackBody : List Nat := [0x3D, 0x3D, 0x46, 0x49, 0x4E, 0x41, 0x43, 0x4B, 0x3D, 0x3D]

def termFrame (finalSeq : Int) : Int × List Nat := (finalSeq, [])

def finackFrame : Int × List Nat := (0, finackBody)

inductive TPhase
  | waitAck
  | waitFin
  | closed
deriving DecidableEq

/-- One received event (or timeout) in the teardown loop: in `waitAck` the
iteration starts by sending the terminal frame and then reads one datagram;
in `waitFin` no send precedes the read; a FIN closes the session with a
single FINACK; anything else falls back to the loop top. -/
def teardownStep (finalSeq : Int) (ph : TPhase) (e : Option (Int × String)) :
    TPhase × List (Int × List Nat) :=
  match ph with
  | .waitAck =>
    match e with
    | none => (.waitAck, [termFrame finalSeq])
    | some f =>
      if f.2 = "ack" ∧ f.1 = finalSeq then (.waitFin, [termFrame finalSeq])
      else (.waitAck, [termFrame finalSeq])
  | .waitFin =>
    match e with
    | some f => if f.2 = "fin" then (.closed, [finackFrame]) else (.waitAck, [])
    | none => (.waitAck, [])
  | .closed => (.closed, [])

/-- Run the teardown from a phase over an event trace, collecting the frames
sent (in order). -/
def teardownRunFrom (finalSeq : Int) : TPhase → List (Option (Int × String)) →
    TPhase × List (Int × List Nat)
  | ph, [] => (ph, [])
  | ph, e :: es =>
    let s := teardownStep finalSeq ph e
    let rest := teardownRunFrom finalSeq s.1 es
    (rest.1, s.2 ++ rest.2)

/-! ## Stop-and-wait sender: data phase

`send_file` chunks the file with the same loop and calls `send_one_packet`
per chunk, which resends until an ACK with `ack_seq >= seq_num + len(data)`
arrives and returns the delay from entering the function (just before the
first send) to accepting the ACK.  Observables: the per-segment first
transmission times (`firstAt`, one slot per segment), the delays, and the
index of the segment currently in flight. -/

structure SawState where
  segIdx : Nat
  started : Option Nat
  firstAt : List (Option Nat)
  delays : List Nat
deriving DecidableEq

/-- End offset `seq_num + len(data)` of segment `j` of a table. -/
def endOf (tbl : List (Nat × List Nat)) (j : Nat) : Int :=
  ((tbl.getD j (0, [])).1 : Int) + (tbl.getD j (0, [])).2.length

/-- Initial state: segment 0 (when it exists) is first sent at `t0`. -/
def sawInit (n : Nat) (t0 : Nat) : SawState :=
  { segIdx := 0, started := if 0 < n then some t0 else none,
    firstAt := (List.range n).map (fun i => if i = 0 then some t0 else none),
    delays := [] }

/-- One received event for the current `send_one_packet` call: a timeout or
a rejected ACK leads to a resend of the same segment (observables
unchanged); an ACK with `ack_seq >= seq_num + len(data)` is accepted,
records the delay, and immediately starts the next segment's
`send_one_packet`, whose first transmission happens at the accept time. -/
def sawStep (tbl : List (Nat × List Nat)) (st : SawState)
    (ev : Nat × Option (Int × String)) : SawState :=
  if st.segIdx < tbl.length then
    match ev.2 with
    | none => st
    | some f =>
      if f.2 = "ack" ∧ endOf tbl st.segIdx ≤ f.1 then
        { segIdx := st.segIdx + 1,
          started := if st.segIdx + 1 < tbl.length then some ev.1 else none,
          firstAt := if st.segIdx + 1 < tbl.length then
              st.firstAt.set (st.segIdx + 1) (some ev.1)
            else st.firstAt,
          delays := st.delays ++ [ev.1 - st.started.getD 0] }
      else st
  else st

def sawRun (tbl : List (Nat × List Nat)) (t0 : Nat)
    (evs : List (Nat × Option (Int × String))) : SawState :=
  evs.foldl (sawStep tbl) (sawInit tbl.length t0)

/-- Event traces whose frames are exactly the in-order cumulative ACKs:
the `j`-th frame echoes precisely the end offset of segment `j`. Timeouts
may be interleaved freely. -/
def inOrderFrom (tbl : List (Nat × List Nat)) : Nat → List (Nat × Option (Int × String)) → Bool
  | _, [] => true
  | j, (_, none) :: es => inOrderFrom tbl j es
  | j, (_, some f) :: es =>
      decide (j < tbl.length) && decide (f.2 = "ack") && decide (f.1 = endOf tbl j) &&
        inOrderFrom tbl (j + 1) es

/-! ## Metrics

Sliding-window sender, lines 203-208: guarded mean and score.
Stop-and-wait sender, lines 203-207: the same formulas with no guards, so
an empty delay list or a zero mean raises `ZeroDivisionError`
(modelled by `none`).  Floats are abstracted as rationals. -/

def meanDelayWin (delays : List ℚ) : ℚ :=
  if delays = [] then 0 else delays.sum / delays.length

def scoreWin (rate meanDelay : ℚ) : ℚ :=
  if 0 < meanDelay then 0.3 * (rate / 1000) + 0.7 / meanDelay else 0

def avgDelaySaw (delays : List ℚ) : Option ℚ :=
  if delays.length = 0 then none else some (delays.sum / delays.length)

def metricSaw (throughput : ℚ) (delays : List ℚ) : Option ℚ :=
  match avgDelaySaw delays with
  | none => none
  | some d => if d = 0 then none else some (0.3 * (throughput / 1000) + 0.7 / d)

/-- Data-phase invariant of the windowed engine: cursors in range, the
cursors ordered, the window bound on the send cursor, everything left of
`leftEdge` acknowledged, nothing at or right of `sendNext` ever transmitted,
and `leftEdge` already slid as far as possible. -/
structure SWInv (W : Nat) (st : SWState) : Prop where
  le_n : st.leftEdge ≤ st.pkts.length
  sn_n : st.sendNext ≤ st.pkts.length
  le_sn : st.leftEdge ≤ st.sendNext
  sn_W : st.sendNext ≤ st.leftEdge + W
  ackedPrefix : ∀ i (h : i < st.pkts.length), i < st.leftEdge → st.pkts[i].isAcked = true
  unsent : ∀ i (h : i < st.pkts.length), st.sendNext ≤ i → st.pkts[i].firstSent = none
  slid : slide st.pkts st.leftEdge = st.leftEdge

/-- Placeholder packet for out-of-range `getD` lookups. -/
def defaultPacket : Packet :=
  { sequence := 0, length := 0, isAcked := false, firstSent := none, recentSent := none }

/-- Coupling between the windowed engine at window size 1 and the
stop-and-wait observables over the same segment table, used for their
equivalence proof: same progress point, matching acknowledged prefix,
matching per-segment first-transmission times, matching delay samples, and
the in-flight segment's start time agreeing with its first-send stamp. -/
structure SawCoupling (tbl : List (Nat × List Nat)) (sw : SWState) (saw : SawState) : Prop where
  len_pkts : sw.pkts.length = tbl.length
  seg_le : saw.segIdx ≤ tbl.length
  le_eq : sw.leftEdge = saw.segIdx
  sn_eq : sw.sendNext = min (saw.segIdx + 1) tbl.length
  nextExp : ∀ i (h : i < sw.pkts.length), sw.pkts[i].nextExpected = endOf tbl i
  acked : ∀ i (h : i < sw.pkts.length), sw.pkts[i].isAcked = decide (i < saw.segIdx)
  firstAt_eq : sw.pkts.map (fun p => p.firstSent) = saw.firstAt
  fs_some : ∀ i (h : i < sw.pkts.length),
    (sw.pkts[i].firstSent).isSome = decide (i < min (saw.segIdx + 1) tbl.length)
  started_eq : saw.segIdx < tbl.length →
    saw.started = (sw.pkts.getD saw.segIdx defaultPacket).firstSent
  delays_eq : sw.delays = saw.delays

/-! ## Theorems -/

theorem segGo_nil (c : Nat) (fuel pos : Nat) : segGo c fuel pos [] = [] := by
  cases fuel <;> rfl

/-- Concatenating the payloads of `segGo` reproduces the remaining bytes. -/
theorem segGo_flatten (c : Nat) (hc : 0 < c) :
    ∀ fuel pos (rest : List Nat), rest.length ≤ fuel →
      ((segGo c fuel pos rest).map Prod.snd).flatten = rest := by
  intro fuel
  induction fuel with
  | zero =>
    intro pos rest h
    have : rest = [] := List.length_eq_zero.mp (Nat.le_zero.mp h)
    subst this; rfl
  | succ f ih =>
    intro pos rest h
    cases rest with
    | nil => rfl
    | cons b bs =>
      simp only [segGo, List.map_cons, List.flatten_cons]
      rw [ih]
      · exact List.take_append_drop c (b :: bs)
      · rw [List.length_drop]
        simp only [List.length_cons] at h ⊢
        omega

/-- Every payload produced by `segGo` is nonempty (no trailing empty segment). -/
theorem segGo_payload_ne_nil (c : Nat) (hc : 0 < c) :
    ∀ fuel pos (rest : List Nat) s, s ∈ segGo c fuel pos rest → s.2 ≠ [] := by
  intro fuel
  induction fuel with
  | zero => intro pos rest s hs; simp [segGo] at hs
  | succ f ih =>
    intro pos rest s hs
    cases rest with
    | nil => simp [segGo] at hs
    | cons b bs =>
      simp only [segGo, List.mem_cons] at hs
      rcases hs with h | h
      · subst h
        simp only [ne_eq, List.take_eq_nil_iff]
        intro hcontra
        rcases hcontra with h' | h' <;> first | exact hc.ne' h' | cases h'
      · exact ih _ _ _ h

/-- Every payload produced by `segGo` has length at most the chunk size. -/
theorem segGo_payload_le (c : Nat) :
    ∀ fuel pos (rest : List Nat) s, s ∈ segGo c fuel pos rest → s.2.length ≤ c := by
  intro fuel
  induction fuel with
  | zero => intro pos rest s hs; simp [segGo] at hs
  | succ f ih =>
    intro pos rest s hs
    cases rest with
    | nil => simp [segGo] at hs
    | cons b bs =>
      simp only [segGo, List.mem_cons] at hs
      rcases hs with h | h
      · subst h
        simpa using List.length_take_le c (b :: bs)
      · exact ih _ _ _ h

/-- The head segment of `segGo` on a nonempty rest starts at `pos` and carries
the first `c` remaining bytes. -/
theorem segGo_head (c : Nat) (fuel pos : Nat) (b : Nat) (bs : List Nat)
    (hf : (b :: bs).length ≤ fuel) :
    ∃ tl, segGo c fuel pos (b :: bs) = (pos, (b :: bs).take c) :: tl := by
  cases fuel with
  | zero => simp at hf
  | succ f => exact ⟨_, rfl⟩

/-- Consecutive segments of `segGo` are contiguous: the next offset is the
current offset plus the current payload length. -/
theorem segGo_chain (c : Nat) (hc : 0 < c) :
    ∀ fuel pos (rest : List Nat), rest.length ≤ fuel →
      (segGo c fuel pos rest).Chain' (fun s t => t.1 = s.1 + s.2.length) := by
  intro fuel
  induction fuel with
  | zero =>
    intro pos rest h
    have : rest = [] := List.length_eq_zero.mp (Nat.le_zero.mp h)
    subst this; simp [segGo]
  | succ f ih =>
    intro pos rest h
    cases rest with
    | nil => simp [segGo]
    | cons b bs =>
      simp only [segGo]
      have hdroplen : ((b :: bs).drop c).length ≤ f := by
        rw [List.length_drop]
        simp only [List.length_cons] at h ⊢
        omega
      cases hd : (b :: bs).drop c with
      | nil =>
        rw [segGo_nil]
        simp
      | cons d ds =>
        rw [hd] at hdroplen
        obtain ⟨tl, htl⟩ := segGo_head c f (pos + ((b :: bs).take c).length) d ds hdroplen
        rw [htl, List.chain'_cons]
        constructor
        · rfl
        · rw [← htl]
          exact ih _ _ hdroplen

/-- Number of segments: one chunk per `c` bytes, rounded up. -/
theorem segGo_length (c : Nat) (hc : 0 < c) :
    ∀ fuel pos (rest : List Nat), rest ≠ [] → rest.length ≤ fuel →
      (segGo c fuel pos rest).length = (rest.length + c - 1) / c := by
  intro fuel
  induction fuel with
  | zero =>
    intro pos rest hne h
    exact absurd (List.length_eq_zero.mp (Nat.le_zero.mp h)) hne
  | succ f ih =>
    intro pos rest hne h
    cases rest with
    | nil => exact absurd rfl hne
    | cons b bs =>
      simp only [segGo, List.length_cons]
      by_cases hlen : (b :: bs).length ≤ c
      · have hdrop : (b :: bs).drop c = [] := List.drop_eq_nil_of_le hlen
        rw [hdrop, segGo_nil]
        simp only [List.length_nil, List.length_cons] at hlen ⊢
        symm
        exact Nat.div_eq_of_lt_le (by omega) (by omega)
      · push_neg at hlen
        have hdropne : (b :: bs).drop c ≠ [] := by
          intro hnil
          have := List.length_drop c (b :: bs)
          rw [hnil] at this
          simp only [List.length_nil] at this
          omega
        have hdroplen : ((b :: bs).drop c).length ≤ f := by
          rw [List.length_drop]
          simp only [List.length_cons] at h ⊢
          omega
        rw [ih _ _ hdropne hdroplen, List.length_drop]
        have h1 : (b :: bs).length - c + c - 1 = (b :: bs).length - 1 := by omega
        have h2 : (b :: bs).length + c - 1 = ((b :: bs).length - 1) + c := by
          simp only [List.length_cons]; omega
        rw [h1]
        simp only [List.length_cons] at h2 ⊢
        rw [h2, Nat.add_div_right _ hc]

/-- All segments except possibly the last carry exactly `c` bytes. -/
theorem segGo_dropLast_len (c : Nat) (hc : 0 < c) :
    ∀ fuel pos (rest : List Nat), rest.length ≤ fuel →
      ∀ s ∈ (segGo c fuel pos rest).dropLast, s.2.length = c := by
  intro fuel
  induction fuel with
  | zero =>
    intro pos rest h s hs
    have : rest = [] := List.length_eq_zero.mp (Nat.le_zero.mp h)
    subst this
    simp [segGo] at hs
  | succ f ih =>
    intro pos rest h s hs
    cases rest with
    | nil => simp [segGo] at hs
    | cons b bs =>
      simp only [segGo] at hs
      by_cases hlen : (b :: bs).length ≤ c
      · have hdrop : (b :: bs).drop c = [] := List.drop_eq_nil_of_le hlen
        rw [hdrop, segGo_nil] at hs
        simp at hs
      · push_neg at hlen
        have hdroplen : ((b :: bs).drop c).length ≤ f := by
          rw [List.length_drop]
          simp only [List.length_cons] at h ⊢
          omega
        have hdropne : (b :: bs).drop c ≠ [] := by
          intro hnil
          have := List.length_drop c (b :: bs)
          rw [hnil] at this
          simp only [List.length_nil] at this
          omega
        cases hd : (b :: bs).drop c with
        | nil => exact absurd hd hdropne
        | cons d ds =>
          rw [hd] at hs hdroplen
          obtain ⟨tl, htl⟩ := segGo_head c f (pos + ((b :: bs).take c).length) d ds hdroplen
          rw [htl] at hs
          rw [List.dropLast_cons₂, List.mem_cons] at hs
          rcases hs with h' | h'
          · subst h'
            rw [List.length_take]
            omega
          · rw [← htl] at h'
            exact ih _ _ hdroplen s h'

/-- Length of the last segment: the remaining bytes after the full chunks. -/
theorem segGo_getLast_len (c : Nat) (hc : 0 < c) :
    ∀ fuel pos (rest : List Nat), rest.length ≤ fuel →
      ∀ s, (segGo c fuel pos rest).getLast? = some s →
        s.2.length = rest.length - ((segGo c fuel pos rest).length - 1) * c := by
  intro fuel
  induction fuel with
  | zero =>
    intro pos rest h s hs
    have : rest = [] := List.length_eq_zero.mp (Nat.le_zero.mp h)
    subst this
    simp [segGo] at hs
  | succ f ih =>
    intro pos rest h s hs
    cases rest with
    | nil => simp [segGo] at hs
    | cons b bs =>
      by_cases hlen : (b :: bs).length ≤ c
      · have hdrop : (b :: bs).drop c = [] := List.drop_eq_nil_of_le hlen
        simp only [segGo, hdrop, segGo_nil] at hs ⊢
        simp only [List.getLast?_singleton, Option.some.injEq] at hs
        subst hs
        simp only [List.length_singleton]
        rw [List.take_of_length_le hlen]
        simp
      · push_neg at hlen
        have hdroplen : ((b :: bs).drop c).length ≤ f := by
          rw [List.length_drop]
          simp only [List.length_cons] at h ⊢
          omega
        cases hd : (b :: bs).drop c with
        | nil =>
          have := List.length_drop c (b :: bs)
          rw [hd] at this
          simp only [List.length_nil] at this
          omega
        | cons d ds =>
          rw [hd] at hdroplen
          obtain ⟨tl, htl⟩ := segGo_head c f (pos + ((b :: bs).take c).length) d ds hdroplen
          simp only [segGo, hd, htl] at hs ⊢
          rw [List.getLast?_cons_cons] at hs
          rw [← htl] at hs ⊢
          have hIH := ih (pos + ((b :: bs).take c).length) (d :: ds) hdroplen s hs
          have hcount : 1 ≤ (segGo c f (pos + ((b :: bs).take c).length) (d :: ds)).length := by
            rw [htl]; simp
          have hlen2 : (d :: ds).length = (b :: bs).length - c := by
            rw [← hd, List.length_drop]
          have hmul : ((segGo c f (pos + ((b :: bs).take c).length) (d :: ds)).length - 1) * c + c
              = (segGo c f (pos + ((b :: bs).take c).length) (d :: ds)).length * c := by
            cases hk : (segGo c f (pos + ((b :: bs).take c).length) (d :: ds)).length with
            | zero => rw [hk] at hcount; omega
            | succ k => simp [Nat.succ_mul]
          simp only [List.length_cons, Nat.add_sub_cancel] at *
          omega

/-- `int.to_bytes(x, 4, signed=True)` succeeds exactly on the signed 32-bit
range. -/
theorem intToBytes4_isSome_iff (x : Int) :
    (intToBytes4 x).isSome ↔ (-(2 ^ 31) ≤ x ∧ x < 2 ^ 31) := by
  unfold intToBytes4
  split_ifs with h
  · simp only [Option.isSome_some, true_iff]
    exact h
  · simp only [Option.isSome_none, Bool.false_eq_true, false_iff]
    exact h

/-- Round trip: decoding an encoded in-range header returns the offset. -/
theorem intToBytes4_roundtrip (x : Int) (h1 : -(2 ^ 31) ≤ x) (h2 : x < 2 ^ 31) :
    ∃ bs, intToBytes4 x = some bs ∧ bs.length = 4 ∧ (∀ b ∈ bs, b < 256) ∧
      intFromBytesBE bs = x := by
  obtain ⟨u, hu⟩ : ∃ u : Nat, (x % (2 ^ 32 : Int)).toNat = u := ⟨_, rfl⟩
  have hm1 : (0 : Int) ≤ x % 2 ^ 32 := Int.emod_nonneg x (by norm_num)
  have hm2 : x % 2 ^ 32 < 2 ^ 32 := Int.emod_lt_of_pos x (by norm_num)
  have hux : (u : Int) = x % 2 ^ 32 := by rw [← hu]; exact Int.toNat_of_nonneg hm1
  have hux' : (u : Int) = x % 4294967296 := by rw [hux]; norm_num
  have hm2' : x % 4294967296 < 4294967296 := by rw [show ((4294967296 : Int) = 2 ^ 32) by norm_num]; exact hm2
  have hu32 : u < 4294967296 := by omega
  have h1' : -2147483648 ≤ x := by rw [show ((-2147483648 : Int) = -(2 ^ 31)) by norm_num]; exact h1
  have h2' : x < 2147483648 := by rw [show ((2147483648 : Int) = 2 ^ 31) by norm_num]; exact h2
  refine ⟨[u / 2 ^ 24 % 256, u / 2 ^ 16 % 256, u / 2 ^ 8 % 256, u % 256], ?_, rfl, ?_, ?_⟩
  · unfold intToBytes4
    rw [if_pos ⟨h1, h2⟩, hu]
  · intro b hb
    simp only [List.mem_cons, List.not_mem_nil, or_false] at hb
    rcases hb with rfl | rfl | rfl | rfl <;> exact Nat.mod_lt _ (by norm_num)
  · unfold intFromBytesBE
    simp only [List.foldl_cons, List.foldl_nil, List.length_cons, List.length_nil]
    norm_num
    split_ifs with hcond <;> omega

/-! ### Packet-list transformer lemmas -/

theorem markPacket_sequence (a : Int) (t : Nat) (p : Packet) :
    (markPacket a t p).1.sequence = p.sequence := by
  unfold markPacket; split_ifs <;> rfl

theorem markPacket_len (a : Int) (t : Nat) (p : Packet) :
    (markPacket a t p).1.length = p.length := by
  unfold markPacket; split_ifs <;> rfl

theorem markPacket_firstSent (a : Int) (t : Nat) (p : Packet) :
    (markPacket a t p).1.firstSent = p.firstSent := by
  unfold markPacket; split_ifs <;> rfl

theorem markPacket_recentSent (a : Int) (t : Nat) (p : Packet) :
    (markPacket a t p).1.recentSent = p.recentSent := by
  unfold markPacket; split_ifs <;> rfl

theorem markPacket_isAcked (a : Int) (t : Nat) (p : Packet) :
    (markPacket a t p).1.isAcked = (p.isAcked || decide (p.nextExpected ≤ a)) := by
  unfold markPacket
  split_ifs with h
  · simp [h.1]
  · rcases Decidable.em (p.nextExpected ≤ a) with hle | hle
    · have : ¬p.isAcked = false := fun hf => h ⟨hle, hf⟩
      simp at this
      simp [this]
    · simp [hle]

theorem markPacket_nextExpected (a : Int) (t : Nat) (p : Packet) :
    (markPacket a t p).1.nextExpected = p.nextExpected := by
  unfold Packet.nextExpected
  rw [markPacket_sequence, markPacket_len]

theorem markAll_fst_length (a : Int) (t : Nat) (l : List Packet) :
    (markAll a t l).1.length = l.length := by
  unfold markAll; simp

theorem markAll_fst_getElem (a : Int) (t : Nat) (l : List Packet) (i : Nat)
    (h : i < l.length) (h2 : i < (markAll a t l).1.length) :
    (markAll a t l).1[i] = (markPacket a t l[i]).1 := by
  unfold markAll at h2 ⊢
  simp at h2 ⊢

theorem sendIdx_length (t lo hi : Nat) :
    ∀ (i0 : Nat) (l : List Packet), (sendIdx t lo hi i0 l).length = l.length := by
  intro i0 l
  induction l generalizing i0 with
  | nil => rfl
  | cons p ps ih => simp [sendIdx, ih]

theorem sendIdx_getElem (t lo hi : Nat) :
    ∀ (l : List Packet) (i0 i : Nat) (h : i < l.length)
      (h2 : i < (sendIdx t lo hi i0 l).length),
      (sendIdx t lo hi i0 l)[i] =
        if lo ≤ i0 + i ∧ i0 + i < hi ∧ l[i].isAcked = false then
          { l[i] with firstSent := some (l[i].firstSent.getD t), recentSent := some t }
        else l[i] := by
  intro l
  induction l with
  | nil => intro i0 i h h2; simp at h
  | cons p ps ih =>
    intro i0 i h h2
    cases i with
    | zero => simp [sendIdx]
    | succ i =>
      simp only [sendIdx, List.getElem_cons_succ]
      rw [ih (i0 + 1) i (by simpa using h) (by rw [sendIdx_length]; simpa using h)]
      have harith : i0 + 1 + i = i0 + (i + 1) := by omega
      rw [harith]

theorem sweepPacket_sequence (now retrans : Nat) (p : Packet) :
    (sweepPacket now retrans p).sequence = p.sequence := by
  unfold sweepPacket
  split
  · rfl
  · split_ifs <;> rfl

theorem sweepPacket_len (now retrans : Nat) (p : Packet) :
    (sweepPacket now retrans p).length = p.length := by
  unfold sweepPacket
  split
  · rfl
  · split_ifs <;> rfl

theorem sweepPacket_isAcked (now retrans : Nat) (p : Packet) :
    (sweepPacket now retrans p).isAcked = p.isAcked := by
  unfold sweepPacket
  split
  · rfl
  · split_ifs <;> rfl

theorem sweepPacket_firstSent (now retrans : Nat) (p : Packet) :
    (sweepPacket now retrans p).firstSent = p.firstSent := by
  unfold sweepPacket
  split
  · rfl
  · split_ifs <;> rfl

theorem sweepIdx_length (now retrans lo hi : Nat) :
    ∀ (i0 : Nat) (l : List Packet), (sweepIdx now retrans lo hi i0 l).length = l.length := by
  intro i0 l
  induction l generalizing i0 with
  | nil => rfl
  | cons p ps ih => simp [sweepIdx, ih]

theorem sweepIdx_getElem (now retrans lo hi : Nat) :
    ∀ (l : List Packet) (i0 i : Nat) (h : i < l.length)
      (h2 : i < (sweepIdx now retrans lo hi i0 l).length),
      (sweepIdx now retrans lo hi i0 l)[i] =
        if lo ≤ i0 + i ∧ i0 + i < hi then sweepPacket now retrans l[i] else l[i] := by
  intro l
  induction l with
  | nil => intro i0 i h h2; simp at h
  | cons p ps ih =>
    intro i0 i h h2
    cases i with
    | zero => simp [sweepIdx]
    | succ i =>
      simp only [sweepIdx, List.getElem_cons_succ]
      rw [ih (i0 + 1) i (by simpa using h) (by rw [sweepIdx_length]; simpa using h)]
      have harith : i0 + 1 + i = i0 + (i + 1) := by omega
      rw [harith]

theorem ackedRunLen_le (l : List Packet) : ackedRunLen l ≤ l.length := by
  induction l with
  | nil => simp [ackedRunLen]
  | cons p ps ih =>
    simp only [ackedRunLen, List.length_cons]
    split_ifs <;> omega

theorem ackedRunLen_isAcked (l : List Packet) :
    ∀ i (h : i < l.length), i < ackedRunLen l → l[i].isAcked = true := by
  induction l with
  | nil => intro i h; simp at h
  | cons p ps ih =>
    intro i h hlt
    simp only [ackedRunLen] at hlt
    split_ifs at hlt with hp
    · cases i with
      | zero => simpa using hp
      | succ i =>
        simp only [List.getElem_cons_succ]
        exact ih i (by simpa using h) (by omega)
    · omega

theorem ackedRunLen_stop (l : List Packet) (h : ackedRunLen l < l.length) :
    l[ackedRunLen l].isAcked = false := by
  induction l with
  | nil => simp at h
  | cons p ps ih =>
    simp only [ackedRunLen] at h ⊢
    split_ifs at h ⊢ with hp
    · simp only [List.length_cons] at h
      simpa using ih (by omega)
    · simpa using hp

/-- `ackedRunLen` only depends on the `isAcked` flags. -/
theorem ackedRunLen_congr (l l' : List Packet) (hlen : l.length = l'.length)
    (h : ∀ i (h1 : i < l.length) (h2 : i < l'.length), l[i].isAcked = l'[i].isAcked) :
    ackedRunLen l = ackedRunLen l' := by
  induction l generalizing l' with
  | nil =>
    cases l' with
    | nil => rfl
    | cons q qs => simp at hlen
  | cons p ps ih =>
    cases l' with
    | nil => simp at hlen
    | cons q qs =>
      have h0 := h 0 (by simp) (by simp)
      simp only [List.getElem_cons_zero] at h0
      simp only [ackedRunLen, h0]
      split_ifs with hq
      · have : ackedRunLen ps = ackedRunLen qs := by
          apply ih qs (by simpa using hlen)
          intro i h1 h2
          have := h (i + 1) (by simpa using h1) (by simpa using h2)
          simpa using this
        omega
      · rfl

/-! ### Slide lemmas -/

theorem slide_ge (pkts : List Packet) (le : Nat) : le ≤ slide pkts le :=
  Nat.le_add_right le _

theorem slide_le_length (pkts : List Packet) (le : Nat) (h : le ≤ pkts.length) :
    slide pkts le ≤ pkts.length := by
  unfold slide
  have := ackedRunLen_le (pkts.drop le)
  rw [List.length_drop] at this
  omega

theorem slide_acked (pkts : List Packet) (le : Nat) :
    ∀ i (h : i < pkts.length), le ≤ i → i < slide pkts le → pkts[i].isAcked = true := by
  intro i h hge hlt
  unfold slide at hlt
  have hdrop : i - le < (pkts.drop le).length := by
    rw [List.length_drop]; omega
  have h2 := ackedRunLen_isAcked (pkts.drop le) (i - le) hdrop (by omega)
  rw [List.getElem_drop] at h2
  convert h2 using 3
  omega

theorem slide_stop (pkts : List Packet) (le : Nat) (hle : le ≤ pkts.length)
    (h : slide pkts le < pkts.length) : pkts[slide pkts le].isAcked = false := by
  have hrl : ackedRunLen (pkts.drop le) < (pkts.drop le).length := by
    rw [List.length_drop]
    unfold slide at h
    omega
  have := ackedRunLen_stop (pkts.drop le) hrl
  rw [List.getElem_drop] at this
  exact this

theorem slide_congr (pkts pkts' : List Packet) (le : Nat)
    (hlen : pkts.length = pkts'.length)
    (h : ∀ i (h1 : i < pkts.length) (h2 : i < pkts'.length),
      pkts[i].isAcked = pkts'[i].isAcked) :
    slide pkts le = slide pkts' le := by
  unfold slide
  congr 1
  apply ackedRunLen_congr
  · rw [List.length_drop, List.length_drop, hlen]
  · intro i h1 h2
    rw [List.getElem_drop, List.getElem_drop]
    apply h

theorem slide_idem (pkts : List Packet) (le : Nat) (hle : le ≤ pkts.length) :
    slide pkts (slide pkts le) = slide pkts le := by
  rcases Nat.lt_or_ge (slide pkts le) pkts.length with hlt | hge
  · have hstop := slide_stop pkts le hle hlt
    have hzero : ackedRunLen (pkts.drop (slide pkts le)) = 0 := by
      rw [List.drop_eq_getElem_cons hlt]
      simp [ackedRunLen, hstop]
    show slide pkts le + ackedRunLen (pkts.drop (slide pkts le)) = slide pkts le
    omega
  · have heq : slide pkts le = pkts.length := le_antisymm (slide_le_length pkts le hle) hge
    rw [heq]
    show pkts.length + ackedRunLen (pkts.drop pkts.length) = pkts.length
    rw [List.drop_length]
    rfl

theorem slide_eq_self (pkts : List Packet) (le : Nat) (hle : le ≤ pkts.length)
    (h : ∀ hlt : le < pkts.length, pkts[le].isAcked = false) : slide pkts le = le := by
  rcases Nat.lt_or_ge le pkts.length with hlt | hge
  · have hzero : ackedRunLen (pkts.drop le) = 0 := by
      rw [List.drop_eq_getElem_cons hlt]
      simp [ackedRunLen, h hlt]
    show le + ackedRunLen (pkts.drop le) = le
    omega
  · have hnil : pkts.drop le = [] := List.drop_eq_nil_of_le hge
    show le + ackedRunLen (pkts.drop le) = le
    rw [hnil]
    rfl

theorem sendIdx_isAcked (t lo hi : Nat) (l : List Packet) (i0 i : Nat) (h : i < l.length)
    (h2 : i < (sendIdx t lo hi i0 l).length) :
    (sendIdx t lo hi i0 l)[i].isAcked = l[i].isAcked := by
  rw [sendIdx_getElem t lo hi l i0 i h h2]
  split_ifs <;> rfl

theorem sendIdx_sequence (t lo hi : Nat) (l : List Packet) (i0 i : Nat) (h : i < l.length)
    (h2 : i < (sendIdx t lo hi i0 l).length) :
    (sendIdx t lo hi i0 l)[i].sequence = l[i].sequence := by
  rw [sendIdx_getElem t lo hi l i0 i h h2]
  split_ifs <;> rfl

theorem sendIdx_len (t lo hi : Nat) (l : List Packet) (i0 i : Nat) (h : i < l.length)
    (h2 : i < (sendIdx t lo hi i0 l).length) :
    (sendIdx t lo hi i0 l)[i].length = l[i].length := by
  rw [sendIdx_getElem t lo hi l i0 i h h2]
  split_ifs <;> rfl

/-! ### Invariant preservation -/

theorem swInv_init (W t0 : Nat) (pkts0 : List Packet)
    (hfresh : ∀ i (h : i < pkts0.length),
      pkts0[i].isAcked = false ∧ pkts0[i].firstSent = none) :
    SWInv W (swInit W t0 pkts0) := by
  unfold swInit
  have hlen : (sendIdx t0 0 (min W pkts0.length) 0 pkts0).length = pkts0.length :=
    sendIdx_length t0 0 (min W pkts0.length) 0 pkts0
  refine ⟨?_, ?_, ?_, ?_, ?_, ?_, ?_⟩ <;> dsimp only
  · omega
  · rw [hlen]; exact Nat.min_le_right _ _
  · exact Nat.zero_le _
  · simpa using Nat.min_le_left W pkts0.length
  · intro i h hi0
    omega
  · intro i h hge
    have h' : i < pkts0.length := by rwa [hlen] at h
    rw [sendIdx_getElem t0 0 (min W pkts0.length) pkts0 0 i h' h]
    have : ¬(0 ≤ 0 + i ∧ 0 + i < min W pkts0.length ∧ pkts0[i].isAcked = false) := by
      intro hc
      omega
    rw [if_neg this]
    exact (hfresh i h').2
  · apply slide_eq_self _ _ (by omega)
    intro hlt
    have h0 : (0 : Nat) < pkts0.length := by rwa [hlen] at hlt
    rw [sendIdx_isAcked t0 0 (min W pkts0.length) pkts0 0 0 h0 hlt]
    exact (hfresh 0 h0).1

theorem swInv_processAck (W : Nat) (st : SWState) (t : Nat) (a : Int)
    (inv : SWInv W st) : SWInv W (processAck W st t a) := by
  have hmlen : (markAll a t st.pkts).1.length = st.pkts.length := markAll_fst_length a t st.pkts
  have hacked : ∀ i (h1 : i < st.pkts.length) (h2 : i < (markAll a t st.pkts).1.length),
      (markAll a t st.pkts).1[i].isAcked
        = (st.pkts[i].isAcked || decide (st.pkts[i].nextExpected ≤ a)) := by
    intro i h1 h2
    rw [markAll_fst_getElem a t st.pkts i h1 h2, markPacket_isAcked]
  have hfs : ∀ i (h1 : i < st.pkts.length) (h2 : i < (markAll a t st.pkts).1.length),
      (markAll a t st.pkts).1[i].firstSent = st.pkts[i].firstSent := by
    intro i h1 h2
    rw [markAll_fst_getElem a t st.pkts i h1 h2, markPacket_firstSent]
  have hackedMono : ∀ i (h1 : i < st.pkts.length) (h2 : i < (markAll a t st.pkts).1.length),
      st.pkts[i].isAcked = true → (markAll a t st.pkts).1[i].isAcked = true := by
    intro i h1 h2 hA
    rw [hacked i h1 h2, hA]
    rfl
  have hle2ge : st.leftEdge ≤ slide (markAll a t st.pkts).1 st.leftEdge := slide_ge _ _
  have hle2len : slide (markAll a t st.pkts).1 st.leftEdge ≤ st.pkts.length := by
    have := slide_le_length (markAll a t st.pkts).1 st.leftEdge (by rw [hmlen]; exact inv.le_n)
    omega
  unfold processAck
  simp only
  by_cases hmoved : st.leftEdge < slide (markAll a t st.pkts).1 st.leftEdge
  · rw [if_pos hmoved]
    generalize (if st.sendNext < slide (markAll a t st.pkts).1 st.leftEdge then
      slide (markAll a t st.pkts).1 st.leftEdge else st.sendNext) = sn
    have hsendlen : (sendIdx t sn
        (min (slide (markAll a t st.pkts).1 st.leftEdge + W) (markAll a t st.pkts).1.length) 0
        (markAll a t st.pkts).1).length = (markAll a t st.pkts).1.length :=
      sendIdx_length _ _ _ _ _
    refine ⟨?_, ?_, ?_, ?_, ?_, ?_, ?_⟩ <;> dsimp only
    · rw [hsendlen, hmlen]
      exact hle2len
    · rw [hsendlen]
      exact Nat.min_le_right _ _
    · refine Nat.le_min.mpr ⟨by omega, by omega⟩
    · exact Nat.min_le_left _ _
    · intro i h hi
      have him : i < (markAll a t st.pkts).1.length := by rw [← hsendlen]; exact h
      have hio : i < st.pkts.length := by omega
      rw [sendIdx_isAcked _ _ _ _ _ _ him h]
      rcases Nat.lt_or_ge i st.leftEdge with hcase | hcase
      · exact hackedMono i hio him (inv.ackedPrefix i hio hcase)
      · exact slide_acked (markAll a t st.pkts).1 st.leftEdge i him hcase hi
    · intro i h hge
      have him : i < (markAll a t st.pkts).1.length := by rw [← hsendlen]; exact h
      have hio : i < st.pkts.length := by omega
      have hsn_le : st.sendNext ≤ min (slide (markAll a t st.pkts).1 st.leftEdge + W)
          (markAll a t st.pkts).1.length := by
        refine Nat.le_min.mpr ⟨?_, ?_⟩
        · have := inv.sn_W
          omega
        · rw [hmlen]
          exact inv.sn_n
      rw [sendIdx_getElem _ _ _ _ _ _ him h]
      rw [if_neg (fun hc => absurd hc.2.1 (by omega))]
      rw [hfs i hio him]
      exact inv.unsent i hio (by omega)
    · have hcongr : slide (sendIdx t sn
          (min (slide (markAll a t st.pkts).1 st.leftEdge + W) (markAll a t st.pkts).1.length) 0
          (markAll a t st.pkts).1) (slide (markAll a t st.pkts).1 st.leftEdge)
          = slide (markAll a t st.pkts).1 (slide (markAll a t st.pkts).1 st.leftEdge) := by
        apply slide_congr
        · exact hsendlen
        · intro i h1 h2
          exact sendIdx_isAcked _ _ _ _ _ _ h2 h1
      rw [hcongr]
      exact slide_idem (markAll a t st.pkts).1 st.leftEdge (by rw [hmlen]; exact inv.le_n)
  · rw [if_neg hmoved]
    have heq : slide (markAll a t st.pkts).1 st.leftEdge = st.leftEdge := by omega
    refine ⟨?_, ?_, ?_, ?_, ?_, ?_, ?_⟩ <;> dsimp only
    · rw [hmlen]; exact inv.le_n
    · rw [hmlen]; exact inv.sn_n
    · exact inv.le_sn
    · exact inv.sn_W
    · intro i h hi
      have hio : i < st.pkts.length := by omega
      exact hackedMono i hio h (inv.ackedPrefix i hio hi)
    · intro i h hge
      have hio : i < st.pkts.length := by omega
      rw [hfs i hio h]
      exact inv.unsent i hio hge
    · exact heq

theorem sweepIdx_keeps (now retrans lo hi : Nat) (l : List Packet) (i0 i : Nat)
    (h : i < l.length) (h2 : i < (sweepIdx now retrans lo hi i0 l).length) :
    (sweepIdx now retrans lo hi i0 l)[i].isAcked = l[i].isAcked ∧
    (sweepIdx now retrans lo hi i0 l)[i].firstSent = l[i].firstSent ∧
    (sweepIdx now retrans lo hi i0 l)[i].sequence = l[i].sequence ∧
    (sweepIdx now retrans lo hi i0 l)[i].length = l[i].length := by
  rw [sweepIdx_getElem now retrans lo hi l i0 i h h2]
  split_ifs
  · exact ⟨sweepPacket_isAcked _ _ _, sweepPacket_firstSent _ _ _,
      sweepPacket_sequence _ _ _, sweepPacket_len _ _ _⟩
  · exact ⟨rfl, rfl, rfl, rfl⟩

theorem swInv_sweepState (W : Nat) (st : SWState) (now retrans lo hi : Nat)
    (inv : SWInv W st) :
    SWInv W { st with pkts := sweepIdx now retrans lo hi 0 st.pkts, lastCheck := now } := by
  have hlen := sweepIdx_length now retrans lo hi 0 st.pkts
  refine ⟨?_, ?_, ?_, ?_, ?_, ?_, ?_⟩ <;> dsimp only
  · rw [hlen]; exact inv.le_n
  · rw [hlen]; exact inv.sn_n
  · exact inv.le_sn
  · exact inv.sn_W
  · intro i h hix
    have hio : i < st.pkts.length := by omega
    rw [(sweepIdx_keeps now retrans lo hi st.pkts 0 i hio h).1]
    exact inv.ackedPrefix i hio hix
  · intro i h hge
    have hio : i < st.pkts.length := by omega
    rw [(sweepIdx_keeps now retrans lo hi st.pkts 0 i hio h).2.1]
    exact inv.unsent i hio hge
  · rw [slide_congr (sweepIdx now retrans lo hi 0 st.pkts) st.pkts st.leftEdge hlen
      (fun i h1 h2 => (sweepIdx_keeps now retrans lo hi st.pkts 0 i h2 h1).1)]
    exact inv.slid

theorem swInv_recvPhase (W : Nat) (st : SWState) (t : Nat) (e : Option (Int × String))
    (inv : SWInv W st) : SWInv W (recvPhase W st t e) := by
  cases e with
  | none => exact inv
  | some f =>
    show SWInv W (ackDispatch W st t f.1 f.2)
    unfold ackDispatch
    split_ifs with hmsg
    · exact swInv_processAck W st t f.1 inv
    · exact inv

theorem swInv_timerPhase (W retrans poll : Nat) (st1 : SWState) (t : Nat)
    (inv : SWInv W st1) : SWInv W (timerPhase W retrans poll st1 t) := by
  unfold timerPhase
  split_ifs with htimer
  · exact swInv_sweepState W st1 t retrans _ _ inv
  · exact inv

theorem swInv_step (W retrans poll : Nat) (st : SWState) (ev : Nat × Option (Int × String))
    (inv : SWInv W st) : SWInv W (swStep W retrans poll st ev) := by
  unfold swStep
  split_ifs with hall
  · exact inv
  · exact swInv_timerPhase W retrans poll _ ev.1 (swInv_recvPhase W st ev.1 ev.2 inv)

theorem processAck_pkts_length (W : Nat) (st : SWState) (t : Nat) (a : Int) :
    (processAck W st t a).pkts.length = st.pkts.length := by
  unfold processAck
  simp only
  by_cases hmoved : st.leftEdge < slide (markAll a t st.pkts).1 st.leftEdge
  · rw [if_pos hmoved]
    dsimp only
    rw [sendIdx_length, markAll_fst_length]
  · rw [if_neg hmoved]
    dsimp only
    rw [markAll_fst_length]

theorem processAck_delays (W : Nat) (st : SWState) (t : Nat) (a : Int) :
    (processAck W st t a).delays = st.delays ++ (markAll a t st.pkts).2 := by
  unfold processAck
  simp only
  by_cases hmoved : st.leftEdge < slide (markAll a t st.pkts).1 st.leftEdge
  · rw [if_pos hmoved]
  · rw [if_neg hmoved]

theorem processAck_leftEdge_ge (W : Nat) (st : SWState) (t : Nat) (a : Int) :
    st.leftEdge ≤ (processAck W st t a).leftEdge := by
  unfold processAck
  simp only
  by_cases hmoved : st.leftEdge < slide (markAll a t st.pkts).1 st.leftEdge
  · rw [if_pos hmoved]
    dsimp only
    omega
  · rw [if_neg hmoved]

theorem getElem_list_eq {l l' : List Packet} (hll : l = l') (i : Nat)
    (h : i < l.length) (h2 : i < l'.length) : l[i] = l'[i] := by
  subst hll
  rfl

theorem processAck_pkts_moved (W : Nat) (st : SWState) (t : Nat) (a : Int)
    (h : st.leftEdge < slide (markAll a t st.pkts).1 st.leftEdge) :
    (processAck W st t a).pkts = sendIdx t
      (if st.sendNext < slide (markAll a t st.pkts).1 st.leftEdge
        then slide (markAll a t st.pkts).1 st.leftEdge else st.sendNext)
      (min (slide (markAll a t st.pkts).1 st.leftEdge + W) (markAll a t st.pkts).1.length)
      0 (markAll a t st.pkts).1 := by
  unfold processAck
  simp only
  rw [if_pos h]

theorem processAck_pkts_stay (W : Nat) (st : SWState) (t : Nat) (a : Int)
    (h : ¬ st.leftEdge < slide (markAll a t st.pkts).1 st.leftEdge) :
    (processAck W st t a).pkts = (markAll a t st.pkts).1 := by
  unfold processAck
  simp only
  rw [if_neg h]

/-- Pointwise behaviour of one ACK-processing pass: static fields are
untouched, acknowledged flags are set exactly by the cumulative rule, and
first-send times persist. -/
theorem processAck_pointwise (W : Nat) (st : SWState) (t : Nat) (a : Int)
    (i : Nat) (h : i < st.pkts.length) (h2 : i < (processAck W st t a).pkts.length) :
    (processAck W st t a).pkts[i].sequence = st.pkts[i].sequence ∧
    (processAck W st t a).pkts[i].length = st.pkts[i].length ∧
    (processAck W st t a).pkts[i].isAcked
      = (st.pkts[i].isAcked || decide (st.pkts[i].nextExpected ≤ a)) ∧
    (∀ v, st.pkts[i].firstSent = some v → (processAck W st t a).pkts[i].firstSent = some v) := by
  have hmlen : (markAll a t st.pkts).1.length = st.pkts.length := markAll_fst_length a t st.pkts
  have hmark : ∀ (h3 : i < (markAll a t st.pkts).1.length),
      (markAll a t st.pkts).1[i] = (markPacket a t st.pkts[i]).1 := fun h3 =>
    markAll_fst_getElem a t st.pkts i h h3
  by_cases hmoved : st.leftEdge < slide (markAll a t st.pkts).1 st.leftEdge
  · have hl := processAck_pkts_moved W st t a hmoved
    obtain ⟨sn, hsn⟩ : ∃ sn, (if st.sendNext < slide (markAll a t st.pkts).1 st.leftEdge
        then slide (markAll a t st.pkts).1 st.leftEdge else st.sendNext) = sn := ⟨_, rfl⟩
    rw [hsn] at hl
    have him : i < (markAll a t st.pkts).1.length := by omega
    have hs2 : i < (sendIdx t sn (min (slide (markAll a t st.pkts).1 st.leftEdge + W)
        (markAll a t st.pkts).1.length) 0 (markAll a t st.pkts).1).length := by
      rw [sendIdx_length]
      exact him
    have hge := getElem_list_eq hl i h2 hs2
    rw [hge]
    refine ⟨?_, ?_, ?_, ?_⟩
    · rw [sendIdx_sequence _ _ _ _ _ _ him hs2, hmark him, markPacket_sequence]
    · rw [sendIdx_len _ _ _ _ _ _ him hs2, hmark him, markPacket_len]
    · rw [sendIdx_isAcked _ _ _ _ _ _ him hs2, hmark him, markPacket_isAcked]
    · intro v hv
      rw [sendIdx_getElem _ _ _ _ _ _ him hs2]
      have hfs : (markAll a t st.pkts).1[i].firstSent = some v := by
        rw [hmark him, markPacket_firstSent]
        exact hv
      split_ifs
      · dsimp only
        rw [hfs]
        rfl
      · exact hfs
  · have hl := processAck_pkts_stay W st t a hmoved
    have him : i < (markAll a t st.pkts).1.length := by omega
    have hge := getElem_list_eq hl i h2 him
    rw [hge]
    refine ⟨?_, ?_, ?_, ?_⟩
    · rw [hmark him, markPacket_sequence]
    · rw [hmark him, markPacket_len]
    · rw [hmark him, markPacket_isAcked]
    · intro v hv
      rw [hmark him, markPacket_firstSent]
      exact hv

theorem recvPhase_pkts_length (W : Nat) (st : SWState) (t : Nat) (e : Option (Int × String)) :
    (recvPhase W st t e).pkts.length = st.pkts.length := by
  cases e with
  | none => rfl
  | some f =>
    show (ackDispatch W st t f.1 f.2).pkts.length = st.pkts.length
    unfold ackDispatch
    split_ifs
    · exact processAck_pkts_length W st t f.1
    · rfl

theorem recvPhase_delays_mono (W : Nat) (st : SWState) (t : Nat) (e : Option (Int × String)) :
    ∃ ds, (recvPhase W st t e).delays = st.delays ++ ds := by
  cases e with
  | none =>
    refine ⟨[], ?_⟩
    show st.delays = st.delays ++ []
    simp
  | some f =>
    show ∃ ds, (ackDispatch W st t f.1 f.2).delays = st.delays ++ ds
    unfold ackDispatch
    split_ifs
    · exact ⟨_, processAck_delays W st t f.1⟩
    · exact ⟨[], by simp⟩

theorem recvPhase_pointwise (W : Nat) (st : SWState) (t : Nat) (e : Option (Int × String))
    (i : Nat) (h : i < st.pkts.length) (h2 : i < (recvPhase W st t e).pkts.length) :
    (recvPhase W st t e).pkts[i].sequence = st.pkts[i].sequence ∧
    (recvPhase W st t e).pkts[i].length = st.pkts[i].length ∧
    (recvPhase W st t e).pkts[i].isAcked
      = (st.pkts[i].isAcked || evAckBit e st.pkts[i].nextExpected) ∧
    (∀ v, st.pkts[i].firstSent = some v → (recvPhase W st t e).pkts[i].firstSent = some v) := by
  cases e with
  | none =>
    refine ⟨rfl, rfl, ?_, fun v hv => hv⟩
    show st.pkts[i].isAcked = (st.pkts[i].isAcked || evAckBit none st.pkts[i].nextExpected)
    simp [evAckBit]
  | some f =>
    have hdd : recvPhase W st t (some f) = ackDispatch W st t f.1 f.2 := rfl
    by_cases hmsg : f.2 = "ack"
    · have hl : recvPhase W st t (some f) = processAck W st t f.1 := by
        rw [hdd]
        unfold ackDispatch
        rw [if_pos hmsg]
      have hproc : i < (processAck W st t f.1).pkts.length := by
        rw [processAck_pkts_length]
        exact h
      have hge := getElem_list_eq (congrArg SWState.pkts hl) i h2 hproc
      have hp := processAck_pointwise W st t f.1 i h hproc
      rw [hge]
      refine ⟨hp.1, hp.2.1, ?_, hp.2.2.2⟩
      rw [hp.2.2.1]
      simp [evAckBit, hmsg]
    · have hl : recvPhase W st t (some f) = st := by
        rw [hdd]
        unfold ackDispatch
        rw [if_neg hmsg]
      have hge := getElem_list_eq (congrArg SWState.pkts hl) i h2 h
      rw [hge]
      refine ⟨rfl, rfl, ?_, fun v hv => hv⟩
      simp [evAckBit, hmsg]

theorem timerPhase_pkts_sweep (W retrans poll : Nat) (st1 : SWState) (t : Nat)
    (h : poll < t - st1.lastCheck) :
    (timerPhase W retrans poll st1 t).pkts
      = sweepIdx t retrans st1.leftEdge (min (st1.leftEdge + W) st1.pkts.length) 0 st1.pkts := by
  unfold timerPhase
  rw [if_pos h]

theorem timerPhase_pkts_id (W retrans poll : Nat) (st1 : SWState) (t : Nat)
    (h : ¬ poll < t - st1.lastCheck) :
    (timerPhase W retrans poll st1 t).pkts = st1.pkts := by
  unfold timerPhase
  rw [if_neg h]

theorem timerPhase_pkts_length (W retrans poll : Nat) (st1 : SWState) (t : Nat) :
    (timerPhase W retrans poll st1 t).pkts.length = st1.pkts.length := by
  by_cases h : poll < t - st1.lastCheck
  · rw [timerPhase_pkts_sweep W retrans poll st1 t h, sweepIdx_length]
  · rw [timerPhase_pkts_id W retrans poll st1 t h]

theorem timerPhase_leftEdge (W retrans poll : Nat) (st1 : SWState) (t : Nat) :
    (timerPhase W retrans poll st1 t).leftEdge = st1.leftEdge := by
  unfold timerPhase
  split_ifs <;> rfl

theorem timerPhase_sendNext (W retrans poll : Nat) (st1 : SWState) (t : Nat) :
    (timerPhase W retrans poll st1 t).sendNext = st1.sendNext := by
  unfold timerPhase
  split_ifs <;> rfl

theorem timerPhase_delays (W retrans poll : Nat) (st1 : SWState) (t : Nat) :
    (timerPhase W retrans poll st1 t).delays = st1.delays := by
  unfold timerPhase
  split_ifs <;> rfl

theorem timerPhase_keeps (W retrans poll : Nat) (st1 : SWState) (t : Nat)
    (i : Nat) (h : i < st1.pkts.length) (h2 : i < (timerPhase W retrans poll st1 t).pkts.length) :
    (timerPhase W retrans poll st1 t).pkts[i].sequence = st1.pkts[i].sequence ∧
    (timerPhase W retrans poll st1 t).pkts[i].length = st1.pkts[i].length ∧
    (timerPhase W retrans poll st1 t).pkts[i].isAcked = st1.pkts[i].isAcked ∧
    (timerPhase W retrans poll st1 t).pkts[i].firstSent = st1.pkts[i].firstSent := by
  by_cases hc : poll < t - st1.lastCheck
  · have hl := timerPhase_pkts_sweep W retrans poll st1 t hc
    have hs2 : i < (sweepIdx t retrans st1.leftEdge (min (st1.leftEdge + W) st1.pkts.length) 0
        st1.pkts).length := by
      rw [sweepIdx_length]
      exact h
    have hge := getElem_list_eq hl i h2 hs2
    rw [hge]
    have hk := sweepIdx_keeps t retrans st1.leftEdge (min (st1.leftEdge + W) st1.pkts.length)
      st1.pkts 0 i h hs2
    exact ⟨hk.2.2.1, hk.2.2.2, hk.1, hk.2.1⟩
  · have hl := timerPhase_pkts_id W retrans poll st1 t hc
    have hge := getElem_list_eq hl i h2 (by omega)
    rw [hge]
    exact ⟨rfl, rfl, rfl, rfl⟩

theorem swStep_pkts_length (W retrans poll : Nat) (st : SWState)
    (ev : Nat × Option (Int × String)) :
    (swStep W retrans poll st ev).pkts.length = st.pkts.length := by
  unfold swStep
  split_ifs with hall
  · rfl
  · rw [timerPhase_pkts_length, recvPhase_pkts_length]

theorem swStep_pkts_all (W retrans poll : Nat) (st : SWState)
    (ev : Nat × Option (Int × String)) (hall : st.pkts.all (fun p => p.isAcked) = true) :
    swStep W retrans poll st ev = st := by
  unfold swStep
  rw [if_pos hall]

theorem swStep_pkts_go (W retrans poll : Nat) (st : SWState)
    (ev : Nat × Option (Int × String)) (hall : ¬ st.pkts.all (fun p => p.isAcked) = true) :
    swStep W retrans poll st ev
      = timerPhase W retrans poll (recvPhase W st ev.1 ev.2) ev.1 := by
  unfold swStep
  rw [if_neg hall]

/-- Pointwise behaviour of one whole loop iteration: static fields are
untouched, acknowledged flags follow the cumulative rule (vacuously also
when the loop has already exited), first-send times persist. -/
theorem swStep_pointwise (W retrans poll : Nat) (st : SWState) (t : Nat)
    (e : Option (Int × String)) (i : Nat) (h : i < st.pkts.length)
    (h2 : i < (swStep W retrans poll st (t, e)).pkts.length) :
    (swStep W retrans poll st (t, e)).pkts[i].sequence = st.pkts[i].sequence ∧
    (swStep W retrans poll st (t, e)).pkts[i].length = st.pkts[i].length ∧
    (swStep W retrans poll st (t, e)).pkts[i].isAcked
      = (st.pkts[i].isAcked || evAckBit e st.pkts[i].nextExpected) ∧
    (∀ v, st.pkts[i].firstSent = some v →
      (swStep W retrans poll st (t, e)).pkts[i].firstSent = some v) := by
  by_cases hall : st.pkts.all (fun p => p.isAcked) = true
  · have hl := swStep_pkts_all W retrans poll st (t, e) hall
    have hge := getElem_list_eq (congrArg SWState.pkts hl) i h2 (by omega)
    rw [hge]
    have hack : st.pkts[i].isAcked = true := by
      rw [List.all_eq_true] at hall
      exact hall _ (List.getElem_mem h)
    refine ⟨rfl, rfl, ?_, fun v hv => hv⟩
    rw [hack]
    simp
  · have hl := swStep_pkts_go W retrans poll st (t, e) hall
    have hr : i < (recvPhase W st t e).pkts.length := by
      rw [recvPhase_pkts_length]
      exact h
    have ht2 : i < (timerPhase W retrans poll (recvPhase W st t e) t).pkts.length := by
      rw [timerPhase_pkts_length]
      exact hr
    have hge := getElem_list_eq (congrArg SWState.pkts hl) i h2 ht2
    rw [hge]
    have hk := timerPhase_keeps W retrans poll (recvPhase W st t e) t i hr ht2
    have hp := recvPhase_pointwise W st t e i h hr
    refine ⟨?_, ?_, ?_, ?_⟩
    · rw [hk.1]; exact hp.1
    · rw [hk.2.1]; exact hp.2.1
    · rw [hk.2.2.1]; exact hp.2.2.1
    · intro v hv
      rw [hk.2.2.2]
      exact hp.2.2.2 v hv

theorem mkPackets_length (tbl : List (Nat × List Nat)) : (mkPackets tbl).length = tbl.length := by
  unfold mkPackets
  simp

theorem mkPackets_getElem (tbl : List (Nat × List Nat)) (i : Nat) (h : i < tbl.length)
    (h2 : i < (mkPackets tbl).length) : (mkPackets tbl)[i] = mkPacket tbl[i] := by
  unfold mkPackets at h2 ⊢
  simp

theorem mkPackets_fresh (tbl : List (Nat × List Nat)) :
    ∀ i (h : i < (mkPackets tbl).length),
      (mkPackets tbl)[i].isAcked = false ∧ (mkPackets tbl)[i].firstSent = none := by
  intro i h
  have h1 : i < tbl.length := by rw [mkPackets_length] at h; exact h
  rw [mkPackets_getElem tbl i h1 h]
  exact ⟨rfl, rfl⟩

theorem recvPhase_leftEdge_ge (W : Nat) (st : SWState) (t : Nat) (e : Option (Int × String)) :
    st.leftEdge ≤ (recvPhase W st t e).leftEdge := by
  cases e with
  | none => exact Nat.le_refl _
  | some f =>
    show st.leftEdge ≤ (ackDispatch W st t f.1 f.2).leftEdge
    unfold ackDispatch
    split_ifs
    · exact processAck_leftEdge_ge W st t f.1
    · exact Nat.le_refl _

theorem processAck_sendNext_ge (W : Nat) (st : SWState) (t : Nat) (a : Int)
    (inv : SWInv W st) : st.sendNext ≤ (processAck W st t a).sendNext := by
  by_cases hmoved : st.leftEdge < slide (markAll a t st.pkts).1 st.leftEdge
  · have hl : (processAck W st t a).sendNext
        = min (slide (markAll a t st.pkts).1 st.leftEdge + W) (markAll a t st.pkts).1.length := by
      unfold processAck
      simp only
      rw [if_pos hmoved]
    rw [hl, markAll_fst_length]
    refine Nat.le_min.mpr ⟨?_, inv.sn_n⟩
    have := inv.sn_W
    omega
  · have hl : (processAck W st t a).sendNext = st.sendNext := by
      unfold processAck
      simp only
      rw [if_neg hmoved]
    rw [hl]

theorem recvPhase_sendNext_ge (W : Nat) (st : SWState) (t : Nat) (e : Option (Int × String))
    (inv : SWInv W st) : st.sendNext ≤ (recvPhase W st t e).sendNext := by
  cases e with
  | none => exact Nat.le_refl _
  | some f =>
    show st.sendNext ≤ (ackDispatch W st t f.1 f.2).sendNext
    unfold ackDispatch
    split_ifs
    · exact processAck_sendNext_ge W st t f.1 inv
    · exact Nat.le_refl _

theorem swStep_leftEdge_ge (W retrans poll : Nat) (st : SWState)
    (ev : Nat × Option (Int × String)) :
    st.leftEdge ≤ (swStep W retrans poll st ev).leftEdge := by
  unfold swStep
  split_ifs with hall
  · exact Nat.le_refl _
  · rw [timerPhase_leftEdge]
    exact recvPhase_leftEdge_ge W st ev.1 ev.2

theorem swStep_sendNext_ge (W retrans poll : Nat) (st : SWState)
    (ev : Nat × Option (Int × String)) (inv : SWInv W st) :
    st.sendNext ≤ (swStep W retrans poll st ev).sendNext := by
  unfold swStep
  split_ifs with hall
  · exact Nat.le_refl _
  · rw [timerPhase_sendNext]
    exact recvPhase_sendNext_ge W st ev.1 ev.2 inv

theorem foldl_swInv (W retrans poll : Nat) :
    ∀ (evs : List (Nat × Option (Int × String))) (st : SWState), SWInv W st →
      SWInv W (evs.foldl (swStep W retrans poll) st) := by
  intro evs
  induction evs with
  | nil => intro st inv; exact inv
  | cons ev evs ih =>
    intro st inv
    exact ih _ (swInv_step W retrans poll st ev inv)

theorem foldl_pkts_length (W retrans poll : Nat) :
    ∀ (evs : List (Nat × Option (Int × String))) (st : SWState),
      (evs.foldl (swStep W retrans poll) st).pkts.length = st.pkts.length := by
  intro evs
  induction evs with
  | nil => intro st; rfl
  | cons ev evs ih =>
    intro st
    rw [List.foldl_cons, ih, swStep_pkts_length]

theorem foldl_leftEdge_mono (W retrans poll : Nat) :
    ∀ (evs : List (Nat × Option (Int × String))) (st : SWState),
      st.leftEdge ≤ (evs.foldl (swStep W retrans poll) st).leftEdge := by
  intro evs
  induction evs with
  | nil => intro st; exact Nat.le_refl _
  | cons ev evs ih =>
    intro st
    rw [List.foldl_cons]
    exact Nat.le_trans (swStep_leftEdge_ge W retrans poll st ev) (ih _)

theorem foldl_sendNext_mono (W retrans poll : Nat) :
    ∀ (evs : List (Nat × Option (Int × String))) (st : SWState), SWInv W st →
      st.sendNext ≤ (evs.foldl (swStep W retrans poll) st).sendNext := by
  intro evs
  induction evs with
  | nil => intro st _; exact Nat.le_refl _
  | cons ev evs ih =>
    intro st inv
    rw [List.foldl_cons]
    exact Nat.le_trans (swStep_sendNext_ge W retrans poll st ev inv)
      (ih _ (swInv_step W retrans poll st ev inv))

theorem foldl_static (W retrans poll : Nat) :
    ∀ (evs : List (Nat × Option (Int × String))) (st : SWState) (i : Nat)
      (h : i < st.pkts.length) (h2 : i < (evs.foldl (swStep W retrans poll) st).pkts.length),
      (evs.foldl (swStep W retrans poll) st).pkts[i].sequence = st.pkts[i].sequence ∧
      (evs.foldl (swStep W retrans poll) st).pkts[i].length = st.pkts[i].length := by
  intro evs
  induction evs with
  | nil => intro st i h h2; exact ⟨rfl, rfl⟩
  | cons ev evs ih =>
    intro st i h h2
    rw [List.foldl_cons] at h2
    show (List.foldl (swStep W retrans poll) (swStep W retrans poll st ev) evs).pkts[i].sequence
        = st.pkts[i].sequence ∧
      (List.foldl (swStep W retrans poll) (swStep W retrans poll st ev) evs).pkts[i].length
        = st.pkts[i].length
    have hstep : i < (swStep W retrans poll st ev).pkts.length := by
      rw [swStep_pkts_length]
      exact h
    obtain ⟨t, e⟩ := ev
    have hp := swStep_pointwise W retrans poll st t e i h hstep
    have hrest := ih (swStep W retrans poll st (t, e)) i hstep h2
    exact ⟨hrest.1.trans hp.1, hrest.2.trans hp.2.1⟩

theorem foldl_firstSent_persist (W retrans poll : Nat) :
    ∀ (evs : List (Nat × Option (Int × String))) (st : SWState) (i : Nat)
      (h : i < st.pkts.length) (h2 : i < (evs.foldl (swStep W retrans poll) st).pkts.length)
      (v : Nat), st.pkts[i].firstSent = some v →
      (evs.foldl (swStep W retrans poll) st).pkts[i].firstSent = some v := by
  intro evs
  induction evs with
  | nil => intro st i h h2 v hv; exact hv
  | cons ev evs ih =>
    intro st i h h2 v hv
    rw [List.foldl_cons] at h2
    show (List.foldl (swStep W retrans poll) (swStep W retrans poll st ev) evs).pkts[i].firstSent
        = some v
    have hstep : i < (swStep W retrans poll st ev).pkts.length := by
      rw [swStep_pkts_length]
      exact h
    obtain ⟨t, e⟩ := ev
    have hp := swStep_pointwise W retrans poll st t e i h hstep
    exact ih (swStep W retrans poll st (t, e)) i hstep h2 v (hp.2.2.2 v hv)

theorem foldl_acked_iff (W retrans poll : Nat) :
    ∀ (evs : List (Nat × Option (Int × String))) (st : SWState) (i : Nat)
      (h : i < st.pkts.length) (h2 : i < (evs.foldl (swStep W retrans poll) st).pkts.length),
      ((evs.foldl (swStep W retrans poll) st).pkts[i].isAcked = true ↔
        (st.pkts[i].isAcked = true ∨ ∃ a ∈ ackVals evs, st.pkts[i].nextExpected ≤ a)) := by
  intro evs
  induction evs with
  | nil =>
    intro st i h h2
    simp [ackVals]
  | cons ev evs ih =>
    intro st i h h2
    rw [List.foldl_cons] at h2
    have hgoal : ((List.foldl (swStep W retrans poll) st (ev :: evs)).pkts[i].isAcked = true ↔
        (List.foldl (swStep W retrans poll) (swStep W retrans poll st ev) evs).pkts[i].isAcked
          = true) := Iff.rfl
    rw [hgoal]
    have hstep : i < (swStep W retrans poll st ev).pkts.length := by
      rw [swStep_pkts_length]
      exact h
    obtain ⟨t, e⟩ := ev
    have hp := swStep_pointwise W retrans poll st t e i h hstep
    have hrest := ih (swStep W retrans poll st (t, e)) i hstep h2
    have hne : (swStep W retrans poll st (t, e)).pkts[i].nextExpected
        = st.pkts[i].nextExpected := by
      unfold Packet.nextExpected
      rw [hp.1, hp.2.1]
    rw [hne, hp.2.2.1] at hrest
    rw [hrest]
    cases e with
    | none =>
      simp only [evAckBit, Bool.or_false]
      have : ackVals ((t, none) :: evs) = ackVals evs := by
        unfold ackVals
        rfl
      rw [this]
    | some f =>
      by_cases hmsg : f.2 = "ack"
      · have hv : ackVals ((t, some f) :: evs) = f.1 :: ackVals evs := by
          unfold ackVals
          rw [List.filterMap_cons]
          simp [hmsg]
        rw [hv]
        have hd : (decide (f.2 = "ack")) = true := by simp [hmsg]
        simp only [evAckBit, hd, Bool.true_and, Bool.or_eq_true, decide_eq_true_eq,
          List.mem_cons]
        constructor
        · rintro ((hA | hB) | ⟨a, ha, hle⟩)
          · exact Or.inl hA
          · exact Or.inr ⟨f.1, Or.inl rfl, hB⟩
          · exact Or.inr ⟨a, Or.inr ha, hle⟩
        · rintro (hA | ⟨a, (rfl | ha), hle⟩)
          · exact Or.inl (Or.inl hA)
          · exact Or.inl (Or.inr hle)
          · exact Or.inr ⟨a, ha, hle⟩
      · have hv : ackVals ((t, some f) :: evs) = ackVals evs := by
          unfold ackVals
          rw [List.filterMap_cons]
          simp [hmsg]
        rw [hv]
        simp [evAckBit, hmsg]

/-! ### Window bound, idempotence, delay bookkeeping -/

theorem outstandingCount_le (W : Nat) (st : SWState) (inv : SWInv W st) :
    outstandingCount st ≤ W := by
  unfold outstandingCount
  conv_lhs => rw [← List.take_append_drop st.sendNext st.pkts]
  rw [List.countP_append]
  have hdrop0 : (st.pkts.drop st.sendNext).countP
      (fun p => p.firstSent.isSome && !p.isAcked) = 0 := by
    rw [List.countP_eq_zero]
    intro p hp
    obtain ⟨k, hk, hpe⟩ := List.mem_iff_getElem.mp hp
    have hk2 : st.sendNext + k < st.pkts.length := by
      rw [List.length_drop] at hk
      omega
    rw [List.getElem_drop] at hpe
    have hnone := inv.unsent (st.sendNext + k) hk2 (by omega)
    rw [hpe] at hnone
    simp [hnone]
  rw [hdrop0, Nat.add_zero]
  conv_lhs => rw [← List.take_append_drop st.leftEdge (st.pkts.take st.sendNext)]
  rw [List.countP_append]
  have htake0 : ((st.pkts.take st.sendNext).take st.leftEdge).countP
      (fun p => p.firstSent.isSome && !p.isAcked) = 0 := by
    rw [List.countP_eq_zero]
    intro p hp
    obtain ⟨k, hk, hpe⟩ := List.mem_iff_getElem.mp hp
    have hk' := hk
    simp only [List.length_take] at hk'
    have hk1 : k < (st.pkts.take st.sendNext).length := by
      rw [List.length_take]
      omega
    have hk0 : k < st.pkts.length := by omega
    have hklt : k < st.leftEdge := by omega
    rw [List.getElem_take, List.getElem_take] at hpe
    have hacked := inv.ackedPrefix k hk0 hklt
    rw [hpe] at hacked
    simp [hacked]
  rw [htake0, Nat.zero_add]
  have hlen : ((st.pkts.take st.sendNext).drop st.leftEdge).length ≤ W := by
    rw [List.length_drop, List.length_take]
    have := inv.sn_W
    omega
  exact Nat.le_trans (List.countP_le_length _) hlen

theorem not_all_of_unacked (st : SWState) (i : Nat) (h : i < st.pkts.length)
    (hun : st.pkts[i].isAcked = false) :
    ¬ st.pkts.all (fun p => p.isAcked) = true := by
  intro hall
  rw [List.all_eq_true] at hall
  have := hall _ (List.getElem_mem h)
  rw [hun] at this
  cases this

/-- When every packet covered by `a` is already acknowledged and the left
edge is fully slid, the ACK-processing block is a no-op: duplicate or stale
ACKs are skipped entirely. -/
theorem processAck_id (W : Nat) (st : SWState) (t : Nat) (a : Int)
    (hslid : slide st.pkts st.leftEdge = st.leftEdge)
    (hcov : ∀ i (h : i < st.pkts.length),
      st.pkts[i].nextExpected ≤ a → st.pkts[i].isAcked = true) :
    processAck W st t a = st := by
  have hmark : ∀ p ∈ st.pkts, markPacket a t p = (p, none) := by
    intro p hp
    obtain ⟨i, hi, hpe⟩ := List.mem_iff_getElem.mp hp
    unfold markPacket
    rw [if_neg]
    intro hcontra
    have := hcov i hi (by rw [hpe]; exact hcontra.1)
    rw [hpe] at this
    rw [this] at hcontra
    cases hcontra.2
  have hm1 : (markAll a t st.pkts).1 = st.pkts := by
    show st.pkts.map (fun p => (markPacket a t p).1) = st.pkts
    have : st.pkts.map (fun p => (markPacket a t p).1) = st.pkts.map id := by
      apply List.map_congr_left
      intro p hp
      rw [hmark p hp]
      rfl
    rw [this, List.map_id]
  have hm2 : (markAll a t st.pkts).2 = [] := by
    show st.pkts.filterMap (fun p => (markPacket a t p).2) = []
    rw [List.filterMap_eq_nil]
    intro p hp
    rw [hmark p hp]
  unfold processAck
  simp only
  rw [hm1, hm2, hslid]
  rw [if_neg (Nat.lt_irrefl _)]
  cases st
  simp

theorem markAll_delay_mem (a : Int) (t : Nat) (pkts : List Packet) (i : Nat)
    (h : i < pkts.length) (hcov : pkts[i].nextExpected ≤ a)
    (hun : pkts[i].isAcked = false) (f : Nat) (hf : pkts[i].firstSent = some f) :
    (t - f) ∈ (markAll a t pkts).2 := by
  show (t - f) ∈ pkts.filterMap (fun p => (markPacket a t p).2)
  rw [List.mem_filterMap]
  refine ⟨pkts[i], List.getElem_mem h, ?_⟩
  unfold markPacket
  rw [if_pos ⟨hcov, hun⟩]
  rw [hf]
  rfl

/-- A newly covered, not yet acknowledged packet whose first-send time is
`f` contributes the delay sample `t - f` when the ACK arrives at time `t`. -/
theorem swStep_delay_mem (W retrans poll : Nat) (st : SWState) (t : Nat) (a : Int)
    (i : Nat) (h : i < st.pkts.length)
    (hcov : st.pkts[i].nextExpected ≤ a) (hun : st.pkts[i].isAcked = false)
    (f : Nat) (hf : st.pkts[i].firstSent = some f) :
    (t - f) ∈ (swStep W retrans poll st (t, some (a, "ack"))).delays := by
  have hall := not_all_of_unacked st i h hun
  rw [swStep_pkts_go W retrans poll st (t, some (a, "ack")) hall]
  rw [timerPhase_delays]
  have hr : recvPhase W st t (some (a, "ack")) = processAck W st t a := by
    show ackDispatch W st t a "ack" = processAck W st t a
    unfold ackDispatch
    rw [if_pos rfl]
  rw [hr, processAck_delays]
  rw [List.mem_append]
  exact Or.inr (markAll_delay_mem a t st.pkts i h hcov hun f hf)

theorem swInit_pkts_length (W t0 : Nat) (pkts0 : List Packet) :
    (swInit W t0 pkts0).pkts.length = pkts0.length :=
  sendIdx_length t0 0 (min W pkts0.length) 0 pkts0

/-- Fields of the initial state built over a fresh segment table. -/
theorem swInit_mk (tbl : List (Nat × List Nat)) (W t0 : Nat) (i : Nat)
    (h : i < tbl.length) (h2 : i < (swInit W t0 (mkPackets tbl)).pkts.length) :
    (swInit W t0 (mkPackets tbl)).pkts[i].isAcked = false ∧
    (swInit W t0 (mkPackets tbl)).pkts[i].nextExpected = endOf tbl i ∧
    (swInit W t0 (mkPackets tbl)).pkts[i].firstSent
      = (if i < min W tbl.length then some t0 else none) := by
  have hm : i < (mkPackets tbl).length := by
    rw [mkPackets_length]
    exact h
  have h2' : i < (sendIdx t0 0 (min W (mkPackets tbl).length) 0 (mkPackets tbl)).length := h2
  have hmk : (mkPackets tbl)[i] = mkPacket tbl[i] := mkPackets_getElem tbl i h hm
  have hend : endOf tbl i = ((tbl[i].1 : Int) + tbl[i].2.length) := by
    unfold endOf
    rw [List.getD_eq_getElem tbl (0, []) h]
  refine ⟨?_, ?_, ?_⟩
  · show (sendIdx t0 0 (min W (mkPackets tbl).length) 0 (mkPackets tbl))[i].isAcked = false
    rw [sendIdx_isAcked _ _ _ _ _ _ hm h2', hmk]
    rfl
  · show (sendIdx t0 0 (min W (mkPackets tbl).length) 0 (mkPackets tbl))[i].nextExpected
      = endOf tbl i
    unfold Packet.nextExpected
    rw [sendIdx_sequence _ _ _ _ _ _ hm h2', sendIdx_len _ _ _ _ _ _ hm h2', hmk, hend]
    rfl
  · show (sendIdx t0 0 (min W (mkPackets tbl).length) 0 (mkPackets tbl))[i].firstSent
      = (if i < min W tbl.length then some t0 else none)
    rw [sendIdx_getElem _ _ _ _ _ _ hm h2']
    rw [mkPackets_length]
    by_cases hcase : i < min W tbl.length
    · rw [if_pos ⟨by omega, by omega, by rw [hmk]; rfl⟩, if_pos hcase, hmk]
      rfl
    · rw [if_neg (fun hc => hcase (by omega)), if_neg hcase, hmk]
      rfl

theorem exists_le_iff_maximum (l : List Int) (x : Int) :
    (∃ a ∈ l, x ≤ a) ↔ ∃ m, l.maximum = some m ∧ x ≤ m := by
  constructor
  · rintro ⟨a, ha, hx⟩
    cases hm : l.maximum with
    | bot =>
      have hnil : l = [] := List.maximum_eq_none.mp hm
      subst hnil
      cases ha
    | coe m =>
      exact ⟨m, rfl, le_trans hx (List.le_maximum_of_mem ha hm)⟩
  · rintro ⟨m, hm, hx⟩
    exact ⟨m, List.maximum_mem hm, hx⟩

/-! ## Claim theorems -/

/-- C1: for every sequence of received ACK frames (any order, duplicates
allowed), after processing them the set of packets marked acknowledged is
exactly the set whose end offset (offset + payload length) is at most the
maximum ACK offset ever received; already-acknowledged packets are never
re-processed (an ACK whose covered packets are all acknowledged leaves the
state unchanged — no flag changes, no delay samples, no sends); and
`left_edge` only ever increases as events are processed. -/
theorem c1_cumulative_ack_monotone (contents : List Nat) (c W retrans poll t0 : Nat)
    (evs extra : List (Nat × Option (Int × String))) :
    (∀ i (h1 : i < (segments contents c).length)
      (h2 : i < (swRun W retrans poll t0 (mkPackets (segments contents c)) evs).pkts.length),
      ((swRun W retrans poll t0 (mkPackets (segments contents c)) evs).pkts[i].isAcked = true
        ↔ ∃ m, (ackVals evs).maximum = some m ∧ endOf (segments contents c) i ≤ m)) ∧
    (∀ t a,
      (∀ i (h : i < (swRun W retrans poll t0
          (mkPackets (segments contents c)) evs).pkts.length),
        (swRun W retrans poll t0 (mkPackets (segments contents c)) evs).pkts[i].nextExpected
            ≤ a →
        (swRun W retrans poll t0 (mkPackets (segments contents c)) evs).pkts[i].isAcked
            = true) →
      processAck W (swRun W retrans poll t0 (mkPackets (segments contents c)) evs) t a
        = swRun W retrans poll t0 (mkPackets (segments contents c)) evs) ∧
    ((swRun W retrans poll t0 (mkPackets (segments contents c)) evs).leftEdge
      ≤ (swRun W retrans poll t0 (mkPackets (segments contents c)) (evs ++ extra)).leftEdge) := by
  refine ⟨?_, ?_, ?_⟩
  · intro i h1 h2
    have hinitlen : (swInit W t0 (mkPackets (segments contents c))).pkts.length
        = (segments contents c).length := by
      rw [swInit_pkts_length, mkPackets_length]
    have hinit : i < (swInit W t0 (mkPackets (segments contents c))).pkts.length := by omega
    have hiff := foldl_acked_iff W retrans poll evs
      (swInit W t0 (mkPackets (segments contents c))) i hinit h2
    have hmk := swInit_mk (segments contents c) W t0 i h1 hinit
    rw [hmk.1, hmk.2.1] at hiff
    refine Iff.trans hiff ?_
    refine Iff.trans ?_ (exists_le_iff_maximum (ackVals evs) (endOf (segments contents c) i))
    constructor
    · rintro (hf | h)
      · cases hf
      · exact h
    · intro h
      exact Or.inr h
  · intro t a hcov
    have inv0 : SWInv W (swInit W t0 (mkPackets (segments contents c))) :=
      swInv_init W t0 _ (mkPackets_fresh _)
    have inv := foldl_swInv W retrans poll evs _ inv0
    exact processAck_id W _ t a inv.slid hcov
  · show (List.foldl (swStep W retrans poll) (swInit W t0 (mkPackets (segments contents c)))
        evs).leftEdge
      ≤ (List.foldl (swStep W retrans poll) (swInit W t0 (mkPackets (segments contents c)))
        (evs ++ extra)).leftEdge
    rw [List.foldl_append]
    exact foldl_leftEdge_mono W retrans poll extra _

/-- Witness for C1: four bytes, chunk size 2, window 2, one cumulative ACK
of offset 4 acknowledging both segments; a duplicate ACK is a no-op and the
left edge does not decrease over further events. -/
theorem c1_cumulative_ack_monotone_witness :
    ((swRun 2 5 1 0 (mkPackets (segments [7, 7, 7, 7] 2)) [(1, some (4, "ack"))]).pkts.get
        ⟨0, by decide⟩).isAcked = true ∧
    processAck 2 (swRun 2 5 1 0 (mkPackets (segments [7, 7, 7, 7] 2)) [(1, some (4, "ack"))]) 9 4
      = swRun 2 5 1 0 (mkPackets (segments [7, 7, 7, 7] 2)) [(1, some (4, "ack"))] ∧
    (swRun 2 5 1 0 (mkPackets (segments [7, 7, 7, 7] 2)) [(1, some (4, "ack"))]).leftEdge
      ≤ (swRun 2 5 1 0 (mkPackets (segments [7, 7, 7, 7] 2))
          ([(1, some (4, "ack"))] ++ [(2, none)])).leftEdge :=
  ⟨((c1_cumulative_ack_monotone [7, 7, 7, 7] 2 2 5 1 0 [(1, some (4, "ack"))] [(2, none)]).1
      0 (by decide) (by decide)).mpr ⟨4, by decide, by decide⟩,
   (c1_cumulative_ack_monotone [7, 7, 7, 7] 2 2 5 1 0 [(1, some (4, "ack"))] [(2, none)]).2.1
      9 4 (by decide),
   (c1_cumulative_ack_monotone [7, 7, 7, 7] 2 2 5 1 0 [(1, some (4, "ack"))] [(2, none)]).2.2⟩

/-- C3: at any instant of the data phase the number of outstanding packets
(sent at least once, not yet acknowledged) is at most the configured window
size; the send cursor always sits at or beyond the left edge; and the send
cursor is monotonically non-decreasing as further events are processed. -/
theorem c3_window_bound (contents : List Nat) (c W retrans poll t0 : Nat)
    (evs extra : List (Nat × Option (Int × String))) :
    outstandingCount (swRun W retrans poll t0 (mkPackets (segments contents c)) evs) ≤ W ∧
    (swRun W retrans poll t0 (mkPackets (segments contents c)) evs).leftEdge
      ≤ (swRun W retrans poll t0 (mkPackets (segments contents c)) evs).sendNext ∧
    (swRun W retrans poll t0 (mkPackets (segments contents c)) evs).sendNext
      ≤ (swRun W retrans poll t0 (mkPackets (segments contents c)) (evs ++ extra)).sendNext := by
  have inv0 : SWInv W (swInit W t0 (mkPackets (segments contents c))) :=
    swInv_init W t0 _ (mkPackets_fresh _)
  have inv := foldl_swInv W retrans poll evs _ inv0
  refine ⟨outstandingCount_le W _ inv, inv.le_sn, ?_⟩
  show (List.foldl (swStep W retrans poll) (swInit W t0 (mkPackets (segments contents c)))
      evs).sendNext
    ≤ (List.foldl (swStep W retrans poll) (swInit W t0 (mkPackets (segments contents c)))
      (evs ++ extra)).sendNext
  rw [List.foldl_append]
  exact foldl_sendNext_mono W retrans poll extra _ inv

/-- C6: a packet's `first_sent` stamp, once set, survives every later loop
iteration (in particular it is never altered by a retransmission, however
many there are); and when an ACK arriving at time `t` acknowledges a packet
whose first transmission happened at time `f`, the recorded delay sample is
`t - f`, measured from the first send. -/
theorem c6_first_send_delay (contents : List Nat) (c W retrans poll t0 : Nat)
    (evs extra : List (Nat × Option (Int × String))) :
    (∀ i (h1 : i < (swRun W retrans poll t0
          (mkPackets (segments contents c)) evs).pkts.length)
      (h2 : i < (swRun W retrans poll t0
          (mkPackets (segments contents c)) (evs ++ extra)).pkts.length) (v : Nat),
      (swRun W retrans poll t0 (mkPackets (segments contents c)) evs).pkts[i].firstSent
          = some v →
      (swRun W retrans poll t0 (mkPackets (segments contents c)) (evs ++ extra)).pkts[i].firstSent
          = some v) ∧
    (∀ t a i (h : i < (swRun W retrans poll t0
          (mkPackets (segments contents c)) evs).pkts.length) (f : Nat),
      (swRun W retrans poll t0 (mkPackets (segments contents c)) evs).pkts[i].nextExpected ≤ a →
      (swRun W retrans poll t0 (mkPackets (segments contents c)) evs).pkts[i].isAcked = false →
      (swRun W retrans poll t0 (mkPackets (segments contents c)) evs).pkts[i].firstSent = some f →
      (t - f) ∈ (swStep W retrans poll
        (swRun W retrans poll t0 (mkPackets (segments contents c)) evs) (t, some (a, "ack"))).delays) := by
  constructor
  · intro i h1 h2 v hv
    have happ : (swRun W retrans poll t0 (mkPackets (segments contents c)) (evs ++ extra)).pkts
        = (List.foldl (swStep W retrans poll)
            (swRun W retrans poll t0 (mkPackets (segments contents c)) evs) extra).pkts := by
      show (List.foldl (swStep W retrans poll) (swInit W t0 (mkPackets (segments contents c)))
          (evs ++ extra)).pkts = _
      rw [List.foldl_append]
      rfl
    have h3 : i < (List.foldl (swStep W retrans poll)
        (swRun W retrans poll t0 (mkPackets (segments contents c)) evs) extra).pkts.length := by
      rw [foldl_pkts_length]
      exact h1
    have hge := getElem_list_eq happ i h2 h3
    rw [hge]
    exact foldl_firstSent_persist W retrans poll extra _ i h1 h3 v hv
  · intro t a i h f hcov hun hf
    exact swStep_delay_mem W retrans poll _ t a i h hcov hun f hf

/-- Witness for C6: two-byte file, chunk 1, window 1; segment 0 is first
sent at time 0, survives a timeout iteration at time 3, and an ACK at time
5 records delay 5 - 0. -/
theorem c6_first_send_delay_witness :
    ((swRun 1 5 1 0 (mkPackets (segments [7, 7] 1)) ([(3, none)] ++ [(4, none)])).pkts.get
        ⟨0, by decide⟩).firstSent = some 0 ∧
    (5 - 0) ∈ (swStep 1 5 1 (swRun 1 5 1 0 (mkPackets (segments [7, 7] 1)) [(3, none)])
        (5, some (1, "ack"))).delays :=
  ⟨(c6_first_send_delay [7, 7] 1 1 5 1 0 [(3, none)] [(4, none)]).1
      0 (by decide) (by decide) 0 (by decide),
   (c6_first_send_delay [7, 7] 1 1 5 1 0 [(3, none)] [(4, none)]).2
      5 1 0 (by decide) 0 (by decide) (by decide) (by decide)⟩

theorem chain'_lt_of_contig :
    ∀ l : List (Nat × List Nat), l.Chain' (fun s t => t.1 = s.1 + s.2.length) →
      (∀ s ∈ l, s.2 ≠ []) → l.Chain' (fun s t => s.1 < t.1) := by
  intro l
  induction l with
  | nil => simp
  | cons x xs ih =>
    intro hc hne
    cases xs with
    | nil => simp
    | cons y ys =>
      rw [List.chain'_cons] at hc ⊢
      refine ⟨?_, ih hc.2 (fun s hs => hne s (List.mem_cons_of_mem _ hs))⟩
      have hy : y.1 = x.1 + x.2.length := hc.1
      have hnex : x.2 ≠ [] := hne x (List.mem_cons_self _ _)
      have hpos : 0 < x.2.length := List.length_pos.mpr hnex
      omega

/-- C2: the segmenter is a partition of the payload: concatenating the
payloads in table order reproduces the input exactly, the total byte count
matches, offsets are contiguous (`offset[i+1] = offset[i] + len(payload[i])`)
and strictly increasing, no segment is empty (so no trailing empty segment
even when the length is an exact multiple of the chunk size), and the empty
payload yields the empty table. -/
theorem c2_segmentation_roundtrip (contents : List Nat) (c : Nat) (hc : 0 < c) :
    ((segments contents c).map Prod.snd).flatten = contents ∧
    ((segments contents c).map (fun s => s.2.length)).sum = contents.length ∧
    (segments contents c).Chain' (fun s t => t.1 = s.1 + s.2.length) ∧
    ((segments contents c).map Prod.fst).Pairwise (· < ·) ∧
    (∀ s ∈ segments contents c, s.2 ≠ []) ∧
    segments ([] : List Nat) c = [] := by
  have hflat : ((segments contents c).map Prod.snd).flatten = contents :=
    segGo_flatten c hc contents.length 0 contents (Nat.le_refl _)
  have hchain : (segments contents c).Chain' (fun s t => t.1 = s.1 + s.2.length) :=
    segGo_chain c hc contents.length 0 contents (Nat.le_refl _)
  have hne : ∀ s ∈ segments contents c, s.2 ≠ [] :=
    fun s hs => segGo_payload_ne_nil c hc contents.length 0 contents s hs
  refine ⟨hflat, ?_, hchain, ?_, hne, rfl⟩
  · have := congrArg List.length hflat
    rw [List.length_flatten, List.map_map] at this
    exact this
  · have hlt : (segments contents c).Chain' (fun s t => s.1 < t.1) :=
      chain'_lt_of_contig _ hchain hne
    have hmap : ((segments contents c).map Prod.fst).Chain' (· < ·) := by
      rw [List.chain'_map]
      exact hlt
    exact List.chain'_iff_pairwise.mp hmap

/-- Witness for C2 at a concrete five-byte payload with chunk size 2. -/
theorem c2_segmentation_roundtrip_witness :
    ((segments [1, 2, 3, 4, 5] 2).map Prod.snd).flatten = [1, 2, 3, 4, 5] ∧
    ((segments [1, 2, 3, 4, 5] 2).map (fun s => s.2.length)).sum = 5 ∧
    (segments [1, 2, 3, 4, 5] 2).Chain' (fun s t => t.1 = s.1 + s.2.length) ∧
    ((segments [1, 2, 3, 4, 5] 2).map Prod.fst).Pairwise (· < ·) ∧
    (∀ s ∈ segments [1, 2, 3, 4, 5] 2, s.2 ≠ []) ∧
    segments ([] : List Nat) 2 = [] :=
  c2_segmentation_roundtrip [1, 2, 3, 4, 5] 2 (by decide)

/-- C9: for a nonempty payload of `n` bytes and chunk size `c > 0`, the
segmenter produces exactly `ceil(n / c)` segments; all but the last carry
exactly `c` bytes; the last carries the remaining `n - (count - 1) * c`. -/
theorem c9_segment_count (contents : List Nat) (c : Nat) (hc : 0 < c)
    (hne : contents ≠ []) :
    (segments contents c).length = (contents.length + c - 1) / c ∧
    (∀ s ∈ (segments contents c).dropLast, s.2.length = c) ∧
    (∀ s, (segments contents c).getLast? = some s →
      s.2.length = contents.length - ((segments contents c).length - 1) * c) :=
  ⟨segGo_length c hc contents.length 0 contents hne (Nat.le_refl _),
   fun s hs => segGo_dropLast_len c hc contents.length 0 contents (Nat.le_refl _) s hs,
   fun s hs => segGo_getLast_len c hc contents.length 0 contents (Nat.le_refl _) s hs⟩

/-- Witness for C9: five bytes, chunk size 2: three segments of sizes
2, 2, 1. -/
theorem c9_segment_count_witness :
    (segments [1, 2, 3, 4, 5] 2).length = (5 + 2 - 1) / 2 ∧
    (∀ s ∈ (segments [1, 2, 3, 4, 5] 2).dropLast, s.2.length = 2) ∧
    (∀ s, (segments [1, 2, 3, 4, 5] 2).getLast? = some s →
      s.2.length = 5 - ((segments [1, 2, 3, 4, 5] 2).length - 1) * 2) :=
  c9_segment_count [1, 2, 3, 4, 5] 2 (by decide) (by decide)

/-- C10: frame headers are 4-byte big-endian two's-complement signed
integers: encoding succeeds exactly on `[-2^31, 2^31 - 1]` (so a data or
terminal frame for a payload of `2^31` bytes or more raises an
`OverflowError` instead of wrapping), and decoding an encoded in-range
offset returns it unchanged. -/
theorem c10_header_codec (x : Int) :
    ((intToBytes4 x).isSome ↔ (-(2 ^ 31) ≤ x ∧ x < 2 ^ 31)) ∧
    (-(2 ^ 31) ≤ x → x < 2 ^ 31 →
      ∃ bs, intToBytes4 x = some bs ∧ bs.length = 4 ∧ (∀ b ∈ bs, b < 256) ∧
        intFromBytesBE bs = x) ∧
    (∀ n : Nat, 2 ^ 31 ≤ n → intToBytes4 (n : Int) = none) := by
  refine ⟨intToBytes4_isSome_iff x, intToBytes4_roundtrip x, ?_⟩
  intro n hn
  cases hcase : intToBytes4 (n : Int) with
  | none => rfl
  | some bs =>
    exfalso
    have hr := (intToBytes4_isSome_iff (n : Int)).mp (by rw [hcase]; rfl)
    have h1 : ((2 : Int) ^ 31) ≤ (n : Int) := by exact_mod_cast hn
    have h2 := hr.2
    norm_num at h1 h2
    omega

/-- Witness for C10: the offset -1 round-trips through the codec as
`ff ff ff ff`, and a payload length of `2^31` cannot be encoded. -/
theorem c10_header_codec_witness :
    (∃ bs, intToBytes4 (-1) = some bs ∧ bs.length = 4 ∧ (∀ b ∈ bs, b < 256) ∧
      intFromBytesBE bs = -1) ∧
    intToBytes4 ((2 ^ 31 : Nat) : Int) = none :=
  ⟨(c10_header_codec (-1)).2.1 (by decide) (by decide),
   (c10_header_codec 0).2.2 (2 ^ 31) (by norm_num)⟩

/-- Counterexample to C4: a frame whose body is the invalid UTF-8 byte
`0xFF` does not get discarded with the state unchanged — `.decode()` raises
`UnicodeDecodeError`, which the `except socket.timeout` handler does not
catch, so the receive step aborts `transmit_file` (modelled as
`Except.error`) instead of returning the untouched state. -/
theorem c4_malformed_frame_counterexample :
    recvStepRaw 2 (swInit 2 0 (mkPackets (segments [7, 7] 1))) 1 [0, 0, 0, 9, 255]
      = Except.error () := rfl

/-- C4 (amended): an undecodable body makes the receive step raise — the
exception propagates out of `transmit_file` rather than the frame being
discarded; a frame shorter than the header size is *not* rejected: its
bytes are interpreted as a short big-endian header with an empty body,
which is not `'ack'`, so the state is returned unchanged without crashing. -/
theorem c4_malformed_frame_amended (W : Nat) (st : SWState) (t : Nat) (raw : List Nat) :
    (utf8Decode (raw.drop 4) = none → recvStepRaw W st t raw = Except.error ()) ∧
    (raw.length ≤ 4 → recvStepRaw W st t raw = Except.ok st) := by
  constructor
  · intro hdec
    unfold recvStepRaw
    rw [hdec]
  · intro hlen
    have hdrop : raw.drop 4 = [] := List.drop_eq_nil_of_le hlen
    unfold recvStepRaw
    rw [hdrop]
    show Except.ok (ackDispatch W st t (intFromBytesBE (raw.take 4)) (String.mk [])) = Except.ok st
    rfl

/-- Witness for C4 (amended) at concrete frames: the invalid body `0xFF`
aborts; a two-byte frame is processed without crashing and changes
nothing. -/
theorem c4_malformed_frame_amended_witness :
    recvStepRaw 2 (swInit 2 0 (mkPackets (segments [7, 7] 1))) 1 [255, 255, 0, 0, 255]
      = Except.error () ∧
    recvStepRaw 2 (swInit 2 0 (mkPackets (segments [7, 7] 1))) 1 [0, 7]
      = Except.ok (swInit 2 0 (mkPackets (segments [7, 7] 1))) :=
  ⟨(c4_malformed_frame_amended 2 (swInit 2 0 (mkPackets (segments [7, 7] 1))) 1
      [255, 255, 0, 0, 255]).1 (by decide),
   (c4_malformed_frame_amended 2 (swInit 2 0 (mkPackets (segments [7, 7] 1))) 1
      [0, 7]).2 (by decide)⟩

/-- Counterexample to C5: in the stop-and-wait sender the metrics
computation is not total — with no delay samples (empty payload)
`sum(all_delays) / len(all_delays)` raises `ZeroDivisionError`
(modelled as `none`), instead of yielding mean delay 0 and score 0. -/
theorem c5_metrics_counterexample : metricSaw 1 [] = none := by decide

/-- C5 (amended): the windowed sender's metrics are total exactly as the
claim states: the mean delay is the average of the samples and 0 when
there are none, and the score is `0.3 * (throughput / 1000) + 0.7 / mean`
when the mean is positive and 0 otherwise.  The stop-and-wait sender's
computation is partial: it raises `ZeroDivisionError` precisely when the
sample list is empty or the samples sum to 0, and applies the formula
unguarded otherwise. -/
theorem c5_metrics_amended (rate m t : ℚ) (ds : List ℚ) :
    meanDelayWin ([] : List ℚ) = 0 ∧
    (ds ≠ [] → meanDelayWin ds = ds.sum / ds.length) ∧
    (0 < m → scoreWin rate m = 0.3 * (rate / 1000) + 0.7 / m) ∧
    (¬ 0 < m → scoreWin rate m = 0) ∧
    (metricSaw t ds = none ↔ ds = [] ∨ ds.sum = 0) ∧
    (ds ≠ [] → ds.sum ≠ 0 →
      metricSaw t ds = some (0.3 * (t / 1000) + 0.7 / (ds.sum / ds.length))) := by
  have hlen : (ds = []) ↔ ds.length = 0 := by
    constructor
    · intro h; rw [h]; rfl
    · exact List.length_eq_zero.mp
  refine ⟨rfl, ?_, ?_, ?_, ?_, ?_⟩
  · intro hne
    unfold meanDelayWin
    rw [if_neg hne]
  · intro hm
    unfold scoreWin
    rw [if_pos hm]
  · intro hm
    unfold scoreWin
    rw [if_neg hm]
  · unfold metricSaw avgDelaySaw
    by_cases hnil : ds.length = 0
    · rw [if_pos hnil]
      simp [hlen, hnil]
    · rw [if_neg hnil]
      simp only
      have hq : ((ds.length : ℚ)) ≠ 0 := by
        exact_mod_cast hnil
      by_cases hz : ds.sum = 0
      · rw [hz, zero_div]
        simp [hlen, hnil, hz]
      · have : ds.sum / (ds.length : ℚ) ≠ 0 := div_ne_zero hz hq
        rw [if_neg this]
        simp [hlen, hnil, hz]
  · intro hne hz
    unfold metricSaw avgDelaySaw
    rw [if_neg (fun h => hne (hlen.mpr h))]
    simp only
    have hq : ((ds.length : ℚ)) ≠ 0 := by
      intro h
      exact hne (hlen.mpr (by exact_mod_cast h))
    rw [if_neg (div_ne_zero hz hq)]

/-- Witness for C5 (amended) at concrete values: samples `[2, 4]` have mean
3; a positive mean feeds the score formula; the stop-and-wait metric is the
same formula when defined. -/
theorem c5_metrics_amended_witness :
    meanDelayWin ([2, 4] : List ℚ) = ([2, 4] : List ℚ).sum / (([2, 4] : List ℚ).length : ℚ) ∧
    scoreWin 1000 3 = 0.3 * ((1000 : ℚ) / 1000) + 0.7 / 3 ∧
    metricSaw 500 ([2, 4] : List ℚ)
      = some (0.3 * ((500 : ℚ) / 1000) + 0.7 / (([2, 4] : List ℚ).sum / (([2, 4] : List ℚ).length : ℚ))) :=
  ⟨(c5_metrics_amended 1000 3 500 ([2, 4] : List ℚ)).2.1 (by decide),
   (c5_metrics_amended 1000 3 500 ([2, 4] : List ℚ)).2.2.1 (by norm_num),
   (c5_metrics_amended 1000 3 500 ([2, 4] : List ℚ)).2.2.2.2.2 (by decide) (by norm_num)⟩

theorem teardown_closed_run (finalSeq : Int) :
    ∀ evs, teardownRunFrom finalSeq TPhase.closed evs = (TPhase.closed, []) := by
  intro evs
  induction evs with
  | nil => rfl
  | cons e es ih =>
    show (let s := teardownStep finalSeq TPhase.closed e;
      let rest := teardownRunFrom finalSeq s.1 es
      (rest.1, s.2 ++ rest.2)) = (TPhase.closed, [])
    simp only [teardownStep]
    rw [ih]
    rfl

theorem teardown_aux (finalSeq : Int) :
    ∀ (evs : List (Option (Int × String))) (ph : TPhase),
      ph = TPhase.waitAck ∨ ph = TPhase.waitFin →
      ((teardownRunFrom finalSeq ph evs).1 = TPhase.closed →
        (∃ k, (teardownRunFrom finalSeq ph evs).2
            = List.replicate k (termFrame finalSeq) ++ [finackFrame]) ∧
        (∃ b : Int, some (b, "fin") ∈ evs) ∧
        (ph = TPhase.waitAck → ∃ a : Int, some (a, "ack") ∈ evs ∧ a = finalSeq) ∧
        (ph = TPhase.waitAck → ∃ k, 1 ≤ k ∧ (teardownRunFrom finalSeq ph evs).2
            = List.replicate k (termFrame finalSeq) ++ [finackFrame])) ∧
      ((teardownRunFrom finalSeq ph evs).1 ≠ TPhase.closed →
        ∃ k, (teardownRunFrom finalSeq ph evs).2 = List.replicate k (termFrame finalSeq)) := by
  intro evs
  induction evs with
  | nil =>
    intro ph hph
    constructor
    · intro hclosed
      rcases hph with h | h <;> rw [h] at hclosed <;> cases hclosed
    · intro _
      exact ⟨0, rfl⟩
  | cons e es ih =>
    intro ph hph
    have hrun : teardownRunFrom finalSeq ph (e :: es)
        = ((teardownRunFrom finalSeq (teardownStep finalSeq ph e).1 es).1,
           (teardownStep finalSeq ph e).2
             ++ (teardownRunFrom finalSeq (teardownStep finalSeq ph e).1 es).2) := rfl
    -- classify the step taken on `e`
    have hcases : (∃ a : Int, ph = TPhase.waitFin ∧ e = some (a, "fin") ∧
          teardownStep finalSeq ph e = (TPhase.closed, [finackFrame])) ∨
        (ph = TPhase.waitAck ∧
          teardownStep finalSeq ph e = ((teardownStep finalSeq ph e).1, [termFrame finalSeq]) ∧
          ((teardownStep finalSeq ph e).1 = TPhase.waitAck ∨
            (teardownStep finalSeq ph e).1 = TPhase.waitFin) ∧
          ((teardownStep finalSeq ph e).1 = TPhase.waitFin →
            ∃ a : Int, e = some (a, "ack") ∧ a = finalSeq)) ∨
        (ph = TPhase.waitFin ∧
          teardownStep finalSeq ph e = (TPhase.waitAck, [])) := by
      rcases hph with hph | hph <;> subst hph
      · refine Or.inr (Or.inl ⟨rfl, ?_, ?_, ?_⟩)
        · cases e with
          | none => rfl
          | some f =>
            simp only [teardownStep]
            split_ifs <;> rfl
        · cases e with
          | none => exact Or.inl rfl
          | some f =>
            simp only [teardownStep]
            split_ifs <;> first | exact Or.inl rfl | exact Or.inr rfl
        · cases e with
          | none => intro hcon; cases hcon
          | some f =>
            simp only [teardownStep]
            split_ifs with hc
            · intro _
              refine ⟨f.1, ?_, hc.2⟩
              congr 1
              rw [← hc.1]
            · intro hcon
              cases hcon
      · cases e with
        | none => exact Or.inr (Or.inr ⟨rfl, rfl⟩)
        | some f =>
          by_cases hfin : f.2 = "fin"
          · refine Or.inl ⟨f.1, rfl, ?_, ?_⟩
            · congr 2
              rw [← hfin]
            · simp only [teardownStep]
              rw [if_pos hfin]
          · refine Or.inr (Or.inr ⟨rfl, ?_⟩)
            simp only [teardownStep]
            rw [if_neg hfin]
    rcases hcases with ⟨a, hphv, hev, hst⟩ | ⟨hphv, hframes, hnext, hackinfo⟩ | ⟨hphv, hst⟩
    · -- FIN received while waiting for it: close with one FINACK, then silence
      subst hphv
      have hfull : teardownRunFrom finalSeq TPhase.waitFin (e :: es)
          = (TPhase.closed, [finackFrame]) := by
        rw [hrun, hst]
        simp only
        rw [teardown_closed_run]
        rfl
      constructor
      · intro _
        refine ⟨⟨0, by rw [hfull]; rfl⟩, ⟨a, ?_⟩, ?_, ?_⟩
        · rw [hev]
          exact List.mem_cons_self _ _
        · intro hcon
          cases hcon
        · intro hcon
          cases hcon
      · intro hnc
        exfalso
        apply hnc
        rw [hfull]
    · -- in waitAck the iteration emits one terminal frame and moves on
      subst hphv
      have hihx := ih (teardownStep finalSeq TPhase.waitAck e).1 hnext
      have hfr : (teardownStep finalSeq TPhase.waitAck e).2 = [termFrame finalSeq] := by
        rw [hframes]
      constructor
      · intro hclosed
        rw [hrun] at hclosed
        simp only at hclosed
        obtain ⟨⟨k, hk⟩, ⟨b, hb⟩, _, _⟩ := hihx.1 hclosed
        have hsent : (teardownRunFrom finalSeq TPhase.waitAck (e :: es)).2
            = List.replicate (k + 1) (termFrame finalSeq) ++ [finackFrame] := by
          rw [hrun]
          simp only
          rw [hfr, hk, List.replicate_succ]
          rfl
        refine ⟨⟨k + 1, hsent⟩, ⟨b, List.mem_cons_of_mem _ hb⟩, ?_, ?_⟩
        · intro _
          rcases hnext with hw | hw
          · have hihw := ih TPhase.waitAck (Or.inl rfl)
            rw [hw] at hclosed
            obtain ⟨_, _, hackes, _⟩ := hihw.1 hclosed
            obtain ⟨a, ha, haeq⟩ := hackes rfl
            exact ⟨a, List.mem_cons_of_mem _ ha, haeq⟩
          · obtain ⟨a, hae, haeq⟩ := hackinfo hw
            refine ⟨a, ?_, haeq⟩
            rw [hae]
            exact List.mem_cons_self _ _
        · intro _
          exact ⟨k + 1, by omega, hsent⟩
      · intro hnc
        rw [hrun] at hnc
        simp only at hnc
        obtain ⟨k, hk⟩ := hihx.2 hnc
        refine ⟨k + 1, ?_⟩
        rw [hrun]
        simp only
        rw [hfr, hk, List.replicate_succ]
        rfl
    · -- waitFin fell back to waitAck without sending anything
      subst hphv
      have hihx := ih TPhase.waitAck (Or.inl rfl)
      constructor
      · intro hclosed
        rw [hrun, hst] at hclosed
        simp only at hclosed
        obtain ⟨⟨k, hk⟩, ⟨b, hb⟩, hackes, _⟩ := hihx.1 hclosed
        refine ⟨⟨k, ?_⟩, ⟨b, List.mem_cons_of_mem _ hb⟩, ?_, ?_⟩
        · rw [hrun, hst]
          simp only
          rw [hk]
          rfl
        · intro hcon
          cases hcon
        · intro hcon
          cases hcon
      · intro hnc
        rw [hrun, hst] at hnc
        simp only at hnc
        obtain ⟨k, hk⟩ := hihx.2 hnc
        refine ⟨k, ?_⟩
        rw [hrun, hst]
        simp only
        rw [hk]
        rfl

/-- C7: the teardown loop repeatedly sends the terminal frame (header
`final_seq` = total payload length, empty body); it closes only after an
ACK echoing exactly that offset and, later in the trace, a FIN frame have
been received, and then its whole transmission trace is some positive
number of terminal frames followed by exactly one final FINACK frame
(header 0, body `==FINACK==`) — no frame is ever sent after the FINACK.
A run that has not closed has sent only terminal frames and no FINACK. -/
theorem c7_teardown (finalSeq : Int) (evs : List (Option (Int × String))) :
    ((teardownRunFrom finalSeq TPhase.waitAck evs).1 = TPhase.closed →
      (∃ k, 1 ≤ k ∧ (teardownRunFrom finalSeq TPhase.waitAck evs).2
          = List.replicate k (termFrame finalSeq) ++ [finackFrame]) ∧
      (∃ a : Int, some (a, "ack") ∈ evs ∧ a = finalSeq) ∧
      (∃ b : Int, some (b, "fin") ∈ evs)) ∧
    ((teardownRunFrom finalSeq TPhase.waitAck evs).1 ≠ TPhase.closed →
      ∃ k, (teardownRunFrom finalSeq TPhase.waitAck evs).2
        = List.replicate k (termFrame finalSeq)) := by
  have h := teardown_aux finalSeq evs TPhase.waitAck (Or.inl rfl)
  constructor
  · intro hclosed
    obtain ⟨_, hfin, hack, hk⟩ := h.1 hclosed
    exact ⟨hk rfl, hack rfl, hfin⟩
  · exact h.2

/-- Witness for C7: a run with a timeout, a stale ACK, the matching ACK and
a FIN closes, having sent terminal frames and a final FINACK. -/
theorem c7_teardown_witness :
    (∃ k, 1 ≤ k ∧ (teardownRunFrom 10 TPhase.waitAck
        [none, some (3, "ack"), some (10, "ack"), some (0, "fin")]).2
      = List.replicate k (termFrame 10) ++ [finackFrame]) ∧
    (∃ a : Int, some (a, "ack")
        ∈ [none, some ((3 : Int), "ack"), some ((10 : Int), "ack"), some ((0 : Int), "fin")]
      ∧ a = 10) :=
  ⟨((c7_teardown 10 [none, some (3, "ack"), some (10, "ack"), some (0, "fin")]).1
      (by decide)).1,
   ((c7_teardown 10 [none, some (3, "ack"), some (10, "ack"), some (0, "fin")]).1
      (by decide)).2.1⟩

/-! ### Window size 1 versus stop-and-wait -/

theorem processAck_leftEdge_moved (W : Nat) (st : SWState) (t : Nat) (a : Int)
    (h : st.leftEdge < slide (markAll a t st.pkts).1 st.leftEdge) :
    (processAck W st t a).leftEdge = slide (markAll a t st.pkts).1 st.leftEdge := by
  unfold processAck
  simp only
  rw [if_pos h]

theorem processAck_sendNext_moved (W : Nat) (st : SWState) (t : Nat) (a : Int)
    (h : st.leftEdge < slide (markAll a t st.pkts).1 st.leftEdge) :
    (processAck W st t a).sendNext
      = min (slide (markAll a t st.pkts).1 st.leftEdge + W) (markAll a t st.pkts).1.length := by
  unfold processAck
  simp only
  rw [if_pos h]

/-- End offset of an in-range segment, as a `getElem`. -/
theorem endOf_eq (tbl : List (Nat × List Nat)) (i : Nat) (h : i < tbl.length) :
    endOf tbl i = ((tbl[i].1 : Int) + tbl[i].2.length) := by
  unfold endOf
  rw [List.getD_eq_getElem tbl (0, []) h]

theorem endOf_succ_lt (tbl : List (Nat × List Nat))
    (hchain : tbl.Chain' (fun s u => u.1 = s.1 + s.2.length))
    (hnon : ∀ s ∈ tbl, s.2 ≠ []) (i : Nat) (h : i + 1 < tbl.length) :
    endOf tbl i < endOf tbl (i + 1) := by
  have hi : i < tbl.length := by omega
  have hrel : tbl[i + 1].1 = tbl[i].1 + tbl[i].2.length := by
    have hg := List.chain'_iff_get.mp hchain i (by omega)
    simpa using hg
  have hpos : 0 < tbl[i + 1].2.length :=
    List.length_pos.mpr (hnon _ (List.getElem_mem h))
  rw [endOf_eq tbl i hi, endOf_eq tbl (i + 1) h]
  omega

/-- For a contiguous table with nonempty payloads, the end offsets are
strictly increasing: an ACK reaching segment `j` covers all earlier
segments and no later one. -/
theorem endOf_mono (tbl : List (Nat × List Nat))
    (hchain : tbl.Chain' (fun s u => u.1 = s.1 + s.2.length))
    (hnon : ∀ s ∈ tbl, s.2 ≠ []) :
    ∀ i j : Nat, i < j → j < tbl.length → endOf tbl i < endOf tbl j := by
  intro i j
  induction j with
  | zero =>
    intro hij _
    exact absurd hij (Nat.not_lt_zero i)
  | succ k ih =>
    intro hij hj
    rcases Nat.lt_or_ge i k with hik | hge
    · exact lt_trans (ih hik (by omega)) (endOf_succ_lt tbl hchain hnon k hj)
    · have hik : i = k := by omega
      subst hik
      exact endOf_succ_lt tbl hchain hnon i hj

/-- A timeout leaves `send_one_packet` looping: no observable changes. -/
theorem sawStep_none (tbl : List (Nat × List Nat)) (st : SawState) (t : Nat) :
    sawStep tbl st (t, none) = st := by
  unfold sawStep
  split_ifs <;> rfl

/-- An accepted ACK for the current segment: the delay is recorded and the
next segment (when there is one) is first transmitted at the accept time. -/
theorem sawStep_acc (tbl : List (Nat × List Nat)) (st : SawState) (t : Nat)
    (f : Int × String) (hj : st.segIdx < tbl.length)
    (hcond : f.2 = "ack" ∧ endOf tbl st.segIdx ≤ f.1) :
    sawStep tbl st (t, some f)
      = { segIdx := st.segIdx + 1,
          started := if st.segIdx + 1 < tbl.length then some t else none,
          firstAt := if st.segIdx + 1 < tbl.length then
              st.firstAt.set (st.segIdx + 1) (some t)
            else st.firstAt,
          delays := st.delays ++ [t - st.started.getD 0] } := by
  unfold sawStep
  rw [if_pos hj]
  show (if f.2 = "ack" ∧ endOf tbl st.segIdx ≤ f.1 then
      ({ segIdx := st.segIdx + 1,
         started := if st.segIdx + 1 < tbl.length then some t else none,
         firstAt := if st.segIdx + 1 < tbl.length then
             st.firstAt.set (st.segIdx + 1) (some t)
           else st.firstAt,
         delays := st.delays ++ [t - st.started.getD 0] } : SawState)
    else st) = _
  rw [if_pos hcond]

/-- A state transformation that keeps lengths, the per-packet static and
acknowledgement fields, the edges and the delays preserves the coupling. -/
theorem sawCoupling_keeps (tbl : List (Nat × List Nat)) (sw sw2 : SWState) (saw : SawState)
    (R : SawCoupling tbl sw saw)
    (hlen : sw2.pkts.length = sw.pkts.length)
    (hkeep : ∀ i (h : i < sw.pkts.length) (h2 : i < sw2.pkts.length),
      sw2.pkts[i].sequence = sw.pkts[i].sequence ∧
      sw2.pkts[i].length = sw.pkts[i].length ∧
      sw2.pkts[i].isAcked = sw.pkts[i].isAcked ∧
      sw2.pkts[i].firstSent = sw.pkts[i].firstSent)
    (hle : sw2.leftEdge = sw.leftEdge) (hsn : sw2.sendNext = sw.sendNext)
    (hd : sw2.delays = sw.delays) :
    SawCoupling tbl sw2 saw := by
  have hmapfs : sw2.pkts.map (fun p => p.firstSent) = sw.pkts.map (fun p => p.firstSent) := by
    apply List.ext_getElem
    · simp [hlen]
    · intro i h1 h2
      rw [List.getElem_map, List.getElem_map]
      exact (hkeep i (by simpa using h2) (by simpa using h1)).2.2.2
  refine ⟨?_, R.seg_le, ?_, ?_, ?_, ?_, ?_, ?_, ?_, ?_⟩
  · rw [hlen, R.len_pkts]
  · rw [hle, R.le_eq]
  · rw [hsn, R.sn_eq]
  · intro i h
    have h0 : i < sw.pkts.length := by omega
    have hk := hkeep i h0 h
    show sw2.pkts[i].nextExpected = endOf tbl i
    unfold Packet.nextExpected
    rw [hk.1, hk.2.1]
    have hx := R.nextExp i h0
    unfold Packet.nextExpected at hx
    exact hx
  · intro i h
    have h0 : i < sw.pkts.length := by omega
    rw [(hkeep i h0 h).2.2.1]
    exact R.acked i h0
  · rw [hmapfs]
    exact R.firstAt_eq
  · intro i h
    have h0 : i < sw.pkts.length := by omega
    rw [(hkeep i h0 h).2.2.2]
    exact R.fs_some i h0
  · intro hjn
    have hb0 : saw.segIdx < sw.pkts.length := by
      rw [R.len_pkts]
      exact hjn
    have hb1 : saw.segIdx < sw2.pkts.length := by omega
    rw [List.getD_eq_getElem sw2.pkts defaultPacket hb1, (hkeep _ hb0 hb1).2.2.2]
    have hx := R.started_eq hjn
    rw [List.getD_eq_getElem sw.pkts defaultPacket hb0] at hx
    exact hx
  · rw [hd]
    exact R.delays_eq

/-- After the initial burst at window 1 the two senders agree: segment 0
alone is in flight, first sent at the start time. -/
theorem sawCoupling_init (tbl : List (Nat × List Nat)) (t0 : Nat) :
    SawCoupling tbl (swInit 1 t0 (mkPackets tbl)) (sawInit tbl.length t0) := by
  have hlen : (swInit 1 t0 (mkPackets tbl)).pkts.length = tbl.length := by
    rw [swInit_pkts_length, mkPackets_length]
  refine ⟨hlen, Nat.zero_le _, rfl, ?_, ?_, ?_, ?_, ?_, ?_, rfl⟩
  · show min 1 (mkPackets tbl).length = min (0 + 1) tbl.length
    rw [mkPackets_length]
  · intro i h
    have ht : i < tbl.length := by
      rw [hlen] at h
      exact h
    exact (swInit_mk tbl 1 t0 i ht h).2.1
  · intro i h
    have ht : i < tbl.length := by
      rw [hlen] at h
      exact h
    rw [(swInit_mk tbl 1 t0 i ht h).1]
    show false = decide (i < (0 : Nat))
    simp
  · apply List.ext_getElem
    · rw [List.length_map, hlen]
      show tbl.length = ((List.range tbl.length).map (fun k => if k = 0 then some t0 else none)).length
      rw [List.length_map, List.length_range]
    · intro i h1 h2
      have hb : i < (swInit 1 t0 (mkPackets tbl)).pkts.length := by simpa using h1
      have ht : i < tbl.length := by
        rw [hlen] at hb
        exact hb
      rw [List.getElem_map, (swInit_mk tbl 1 t0 i ht hb).2.2]
      show (if i < min 1 tbl.length then some t0 else none)
          = ((List.range tbl.length).map (fun k => if k = 0 then some t0 else none))[i]
      have hr : i < (List.range tbl.length).length := by
        rw [List.length_range]
        exact ht
      rw [List.getElem_map, List.getElem_range]
      by_cases h0 : i = 0
      · subst h0
        rw [if_pos (by omega), if_pos rfl]
      · rw [if_neg (by omega), if_neg h0]
  · intro i h
    have ht : i < tbl.length := by
      rw [hlen] at h
      exact h
    rw [(swInit_mk tbl 1 t0 i ht h).2.2]
    by_cases h0 : i < min 1 tbl.length
    · rw [if_pos h0]
      show true = decide (i < min (0 + 1) tbl.length)
      symm
      exact decide_eq_true (by omega)
    · rw [if_neg h0]
      show false = decide (i < min (0 + 1) tbl.length)
      symm
      exact decide_eq_false (by omega)
  · intro hn
    have hn0 : 0 < tbl.length := hn
    have hb : 0 < (swInit 1 t0 (mkPackets tbl)).pkts.length := by
      rw [hlen]
      exact hn0
    show (if 0 < tbl.length then some t0 else none)
        = ((swInit 1 t0 (mkPackets tbl)).pkts.getD 0 defaultPacket).firstSent
    rw [List.getD_eq_getElem _ defaultPacket hb, (swInit_mk tbl 1 t0 0 hn0 hb).2.2,
      if_pos hn0, if_pos (by omega : (0 : Nat) < min 1 tbl.length)]

/-- The heart of the window-1 correspondence: processing the in-order
cumulative ACK for the current segment `j` acknowledges exactly segment
`j`, slides the left edge one step, records one delay sample measured from
segment `j`'s first transmission, and first-transmits segment `j + 1`
(when it exists) at the ACK's arrival time. -/
theorem sawCoupling_ackStep (tbl : List (Nat × List Nat))
    (hmono : ∀ i j : Nat, i < j → j < tbl.length → endOf tbl i < endOf tbl j)
    (sw : SWState) (saw : SawState) (j t : Nat)
    (R : SawCoupling tbl sw saw) (hseg : saw.segIdx = j) (hj : j < tbl.length) :
    SawCoupling tbl (processAck 1 sw t (endOf tbl j))
      { segIdx := j + 1,
        started := if j + 1 < tbl.length then some t else none,
        firstAt := if j + 1 < tbl.length then saw.firstAt.set (j + 1) (some t)
          else saw.firstAt,
        delays := saw.delays ++ [t - saw.started.getD 0] } := by
  have hlen : sw.pkts.length = tbl.length := R.len_pkts
  have hja : j < sw.pkts.length := by omega
  have hle : sw.leftEdge = j := by rw [R.le_eq, hseg]
  have hsn : sw.sendNext = min (j + 1) tbl.length := by rw [R.sn_eq, hseg]
  have hacked : ∀ i (h : i < sw.pkts.length), sw.pkts[i].isAcked = decide (i < j) := by
    intro i h
    rw [R.acked i h, hseg]
  have hfs : ∀ i (h : i < sw.pkts.length),
      (sw.pkts[i].firstSent).isSome = decide (i < min (j + 1) tbl.length) := by
    intro i h
    rw [R.fs_some i h, hseg]
  have hiff : ∀ i, i < tbl.length → (endOf tbl i ≤ endOf tbl j ↔ i ≤ j) := by
    intro i hi
    constructor
    · intro hlei
      by_contra hgt
      push_neg at hgt
      have := hmono j i hgt hi
      omega
    · intro hlei
      rcases Nat.lt_or_ge i j with hlt | hge
      · exact le_of_lt (hmono i j hlt hj)
      · have hieq : i = j := by omega
        subst hieq
        exact le_refl _
  have hm1len : (markAll (endOf tbl j) t sw.pkts).1.length = sw.pkts.length :=
    markAll_fst_length _ _ _
  have hm1acked : ∀ i (h : i < sw.pkts.length)
      (h2 : i < (markAll (endOf tbl j) t sw.pkts).1.length),
      (markAll (endOf tbl j) t sw.pkts).1[i].isAcked = decide (i < j + 1) := by
    intro i h h2
    rw [markAll_fst_getElem _ _ _ i h h2, markPacket_isAcked, hacked i h, R.nextExp i h]
    have hd1 : decide (endOf tbl i ≤ endOf tbl j) = decide (i ≤ j) :=
      decide_eq_decide.mpr (hiff i (by omega))
    have hd2 : decide (i < j + 1) = decide (i ≤ j) :=
      decide_eq_decide.mpr Nat.lt_succ_iff
    rw [hd1, hd2]
    by_cases hij : i ≤ j
    · rw [decide_eq_true hij]
      simp
    · rw [decide_eq_false hij, decide_eq_false (by omega : ¬ i < j)]
      rfl
  have hm1fs : ∀ i (h : i < sw.pkts.length)
      (h2 : i < (markAll (endOf tbl j) t sw.pkts).1.length),
      (markAll (endOf tbl j) t sw.pkts).1[i].firstSent = sw.pkts[i].firstSent := by
    intro i h h2
    rw [markAll_fst_getElem _ _ _ i h h2, markPacket_firstSent]
  have hm1ne : ∀ i (h : i < sw.pkts.length)
      (h2 : i < (markAll (endOf tbl j) t sw.pkts).1.length),
      (markAll (endOf tbl j) t sw.pkts).1[i].nextExpected = endOf tbl i := by
    intro i h h2
    rw [markAll_fst_getElem _ _ _ i h h2, markPacket_nextExpected]
    exact R.nextExp i h
  have hjm : j < (markAll (endOf tbl j) t sw.pkts).1.length := by omega
  have hrun0 : ackedRunLen ((markAll (endOf tbl j) t sw.pkts).1.drop (j + 1)) = 0 := by
    rcases Nat.lt_or_ge (j + 1) sw.pkts.length with hlt | hge
    · have hj1 : j + 1 < (markAll (endOf tbl j) t sw.pkts).1.length := by omega
      rw [List.drop_eq_getElem_cons hj1]
      have hun : (markAll (endOf tbl j) t sw.pkts).1[j + 1].isAcked = false := by
        rw [hm1acked (j + 1) hlt hj1]
        exact decide_eq_false (by omega)
      simp [ackedRunLen, hun]
    · have hnil : (markAll (endOf tbl j) t sw.pkts).1.drop (j + 1) = [] :=
        List.drop_eq_nil_of_le (by omega)
      rw [hnil]
      rfl
  have hslide : slide (markAll (endOf tbl j) t sw.pkts).1 sw.leftEdge = j + 1 := by
    rw [hle]
    unfold slide
    rw [List.drop_eq_getElem_cons hjm]
    have hak : (markAll (endOf tbl j) t sw.pkts).1[j].isAcked = true := by
      rw [hm1acked j hja hjm]
      exact decide_eq_true (by omega)
    simp [ackedRunLen, hak, hrun0]
  have hmoved : sw.leftEdge < slide (markAll (endOf tbl j) t sw.pkts).1 sw.leftEdge := by
    rw [hslide, hle]
    omega
  have hjn1 : sw.sendNext = j + 1 := by
    rw [hsn]
    omega
  have hsnif : (if sw.sendNext < slide (markAll (endOf tbl j) t sw.pkts).1 sw.leftEdge
      then slide (markAll (endOf tbl j) t sw.pkts).1 sw.leftEdge else sw.sendNext)
      = j + 1 := by
    rw [hslide, hjn1]
    simp
  have hplist : (processAck 1 sw t (endOf tbl j)).pkts
      = sendIdx t (j + 1) (min (j + 1 + 1) tbl.length) 0 (markAll (endOf tbl j) t sw.pkts).1 := by
    rw [processAck_pkts_moved 1 sw t (endOf tbl j) hmoved, hsnif, hslide, hm1len, hlen]
  have hp2len : (processAck 1 sw t (endOf tbl j)).pkts.length = sw.pkts.length := by
    rw [hplist, sendIdx_length, hm1len]
  have hfs2 : ∀ i (h : i < sw.pkts.length)
      (h2 : i < (processAck 1 sw t (endOf tbl j)).pkts.length),
      (processAck 1 sw t (endOf tbl j)).pkts[i].firstSent
        = if i = j + 1 ∧ j + 1 < tbl.length then some t else sw.pkts[i].firstSent := by
    intro i h h2
    have hm2b : i < (markAll (endOf tbl j) t sw.pkts).1.length := by omega
    have hs2 : i < (sendIdx t (j + 1) (min (j + 1 + 1) tbl.length) 0
        (markAll (endOf tbl j) t sw.pkts).1).length := by
      rw [sendIdx_length]
      omega
    rw [getElem_list_eq hplist i h2 hs2, sendIdx_getElem _ _ _ _ 0 i hm2b hs2]
    by_cases hi1 : i = j + 1 ∧ j + 1 < tbl.length
    · obtain ⟨hieq, hlt⟩ := hi1
      have hcond : j + 1 ≤ 0 + i ∧ 0 + i < min (j + 1 + 1) tbl.length ∧
          (markAll (endOf tbl j) t sw.pkts).1[i].isAcked = false := by
        refine ⟨by omega, by omega, ?_⟩
        rw [hm1acked i h hm2b]
        exact decide_eq_false (by omega)
      rw [if_pos hcond, if_pos ⟨hieq, hlt⟩]
      show some ((markAll (endOf tbl j) t sw.pkts).1[i].firstSent.getD t) = some t
      rw [hm1fs i h hm2b]
      have hnone : sw.pkts[i].firstSent = none := by
        have hx := hfs i h
        cases hcc : sw.pkts[i].firstSent with
        | none => rfl
        | some w =>
          rw [hcc] at hx
          simp only [Option.isSome_some] at hx
          have : i < min (j + 1) tbl.length := of_decide_eq_true hx.symm
          omega
      rw [hnone]
      rfl
    · have hnc : ¬ (j + 1 ≤ 0 + i ∧ 0 + i < min (j + 1 + 1) tbl.length ∧
          (markAll (endOf tbl j) t sw.pkts).1[i].isAcked = false) := by
        intro hcon
        obtain ⟨hc1, hc2, hc3⟩ := hcon
        rw [hm1acked i h hm2b] at hc3
        have hij1 : ¬ i < j + 1 := by
          intro hx
          rw [decide_eq_true hx] at hc3
          cases hc3
        apply hi1
        constructor
        · omega
        · omega
      rw [if_neg hnc, if_neg hi1]
      exact hm1fs i h hm2b
  have hak2 : ∀ i (h : i < sw.pkts.length)
      (h2 : i < (processAck 1 sw t (endOf tbl j)).pkts.length),
      (processAck 1 sw t (endOf tbl j)).pkts[i].isAcked = decide (i < j + 1) := by
    intro i h h2
    have hm2b : i < (markAll (endOf tbl j) t sw.pkts).1.length := by omega
    have hs2 : i < (sendIdx t (j + 1) (min (j + 1 + 1) tbl.length) 0
        (markAll (endOf tbl j) t sw.pkts).1).length := by
      rw [sendIdx_length]
      omega
    rw [getElem_list_eq hplist i h2 hs2, sendIdx_isAcked _ _ _ _ 0 i hm2b hs2]
    exact hm1acked i h hm2b
  have hne2 : ∀ i (h : i < sw.pkts.length)
      (h2 : i < (processAck 1 sw t (endOf tbl j)).pkts.length),
      (processAck 1 sw t (endOf tbl j)).pkts[i].nextExpected = endOf tbl i := by
    intro i h h2
    have hm2b : i < (markAll (endOf tbl j) t sw.pkts).1.length := by omega
    have hs2 : i < (sendIdx t (j + 1) (min (j + 1 + 1) tbl.length) 0
        (markAll (endOf tbl j) t sw.pkts).1).length := by
      rw [sendIdx_length]
      omega
    rw [getElem_list_eq hplist i h2 hs2]
    show (sendIdx t (j + 1) (min (j + 1 + 1) tbl.length) 0
        (markAll (endOf tbl j) t sw.pkts).1)[i].nextExpected = endOf tbl i
    unfold Packet.nextExpected
    rw [sendIdx_sequence _ _ _ _ 0 i hm2b hs2, sendIdx_len _ _ _ _ 0 i hm2b hs2]
    have hx := hm1ne i h hm2b
    unfold Packet.nextExpected at hx
    exact hx
  obtain ⟨v, hv⟩ : ∃ v, sw.pkts[j].firstSent = some v := by
    have hx := hfs j hja
    cases hcc : sw.pkts[j].firstSent with
    | none =>
      rw [hcc] at hx
      simp only [Option.isSome_none] at hx
      have : ¬ j < min (j + 1) tbl.length := of_decide_eq_false hx.symm
      omega
    | some w => exact ⟨w, rfl⟩
  have hm2 : (markAll (endOf tbl j) t sw.pkts).2 = [t - v] := by
    show sw.pkts.filterMap (fun p => (markPacket (endOf tbl j) t p).2) = [t - v]
    have hsplit : sw.pkts = sw.pkts.take j ++ sw.pkts[j] :: sw.pkts.drop (j + 1) := by
      conv_lhs => rw [← List.take_append_drop j sw.pkts]
      rw [List.drop_eq_getElem_cons hja]
    have htake : (sw.pkts.take j).filterMap
        (fun p => (markPacket (endOf tbl j) t p).2) = [] := by
      rw [List.filterMap_eq_nil_iff]
      intro p hp
      obtain ⟨k, hk, hpe⟩ := List.mem_iff_getElem.mp hp
      have hkj : k < j := by
        rw [List.length_take] at hk
        omega
      have hkb : k < sw.pkts.length := by
        rw [List.length_take] at hk
        omega
      have hpk : p = sw.pkts[k] := by
        rw [← hpe]
        exact List.getElem_take sw.pkts
      have hpacked : p.isAcked = true := by
        rw [hpk, hacked k hkb]
        exact decide_eq_true hkj
      have hnc : ¬ (p.nextExpected ≤ endOf tbl j ∧ p.isAcked = false) := by
        intro hcon
        rw [hpacked] at hcon
        cases hcon.2
      unfold markPacket
      rw [if_neg hnc]
    have hdrop : (sw.pkts.drop (j + 1)).filterMap
        (fun p => (markPacket (endOf tbl j) t p).2) = [] := by
      rw [List.filterMap_eq_nil_iff]
      intro p hp
      obtain ⟨k, hk, hpe⟩ := List.mem_iff_getElem.mp hp
      have hkb : j + 1 + k < sw.pkts.length := by
        rw [List.length_drop] at hk
        omega
      have hpk : p = sw.pkts[j + 1 + k] := by
        rw [← hpe]
        rw [List.getElem_drop]
      have hnc : ¬ (p.nextExpected ≤ endOf tbl j ∧ p.isAcked = false) := by
        intro hcon
        have h1 := hcon.1
        rw [hpk, R.nextExp (j + 1 + k) hkb] at h1
        have := (hiff (j + 1 + k) (by omega)).mp h1
        omega
      unfold markPacket
      rw [if_neg hnc]
    have hhead : (markPacket (endOf tbl j) t sw.pkts[j]).2 = some (t - v) := by
      have hcnd : sw.pkts[j].nextExpected ≤ endOf tbl j ∧ sw.pkts[j].isAcked = false := by
        constructor
        · rw [R.nextExp j hja]
        · rw [hacked j hja]
          exact decide_eq_false (by omega)
      unfold markPacket
      rw [if_pos hcnd]
      show sw.pkts[j].firstSent.map (fun w => t - w) = some (t - v)
      rw [hv]
      rfl
    rw [hsplit, List.filterMap_append, htake]
    simp only [List.filterMap_cons, hhead, hdrop, List.nil_append]
  have hdel2 : (processAck 1 sw t (endOf tbl j)).delays = saw.delays ++ [t - v] := by
    rw [processAck_delays, hm2, R.delays_eq]
  have hstarted : saw.started = some v := by
    have hse := R.started_eq (by rw [hseg]; exact hj)
    rw [hseg, List.getD_eq_getElem sw.pkts defaultPacket hja] at hse
    rw [hse]
    exact hv
  refine ⟨?_, ?_, ?_, ?_, ?_, ?_, ?_, ?_, ?_, ?_⟩
  · rw [hp2len, hlen]
  · show j + 1 ≤ tbl.length
    omega
  · show (processAck 1 sw t (endOf tbl j)).leftEdge = j + 1
    rw [processAck_leftEdge_moved 1 sw t (endOf tbl j) hmoved, hslide]
  · show (processAck 1 sw t (endOf tbl j)).sendNext = min (j + 1 + 1) tbl.length
    rw [processAck_sendNext_moved 1 sw t (endOf tbl j) hmoved, hslide, hm1len, hlen]
  · intro i h
    exact hne2 i (by omega) h
  · intro i h
    show (processAck 1 sw t (endOf tbl j)).pkts[i].isAcked = decide (i < j + 1)
    exact hak2 i (by omega) h
  · show (processAck 1 sw t (endOf tbl j)).pkts.map (fun p => p.firstSent)
      = if j + 1 < tbl.length then saw.firstAt.set (j + 1) (some t) else saw.firstAt
    rw [← R.firstAt_eq]
    by_cases hlt : j + 1 < tbl.length
    · rw [if_pos hlt]
      apply List.ext_getElem
      · rw [List.length_map, hp2len, List.length_set, List.length_map]
      · intro i h1 h2
        have hib : i < sw.pkts.length := by
          rw [List.length_map, hp2len] at h1
          exact h1
        have hpb : i < (processAck 1 sw t (endOf tbl j)).pkts.length := by omega
        rw [List.getElem_map, hfs2 i hib hpb]
        by_cases hieq : i = j + 1
        · subst hieq
          rw [if_pos ⟨rfl, hlt⟩, List.getElem_set_self]
        · rw [if_neg (fun hcon => hieq hcon.1),
            List.getElem_set_ne (fun hcon => hieq hcon.symm), List.getElem_map]
    · rw [if_neg hlt]
      apply List.ext_getElem
      · rw [List.length_map, hp2len, List.length_map]
      · intro i h1 h2
        have hib : i < sw.pkts.length := by
          rw [List.length_map, hp2len] at h1
          exact h1
        have hpb : i < (processAck 1 sw t (endOf tbl j)).pkts.length := by omega
        rw [List.getElem_map, hfs2 i hib hpb, List.getElem_map,
          if_neg (fun hcon => hlt hcon.2)]
  · intro i h
    have hib : i < sw.pkts.length := by omega
    show ((processAck 1 sw t (endOf tbl j)).pkts[i].firstSent).isSome
      = decide (i < min (j + 1 + 1) tbl.length)
    rw [hfs2 i hib h]
    by_cases hieq : i = j + 1 ∧ j + 1 < tbl.length
    · obtain ⟨hi1, hi2⟩ := hieq
      rw [if_pos ⟨hi1, hi2⟩]
      show true = decide (i < min (j + 1 + 1) tbl.length)
      symm
      exact decide_eq_true (by omega)
    · rw [if_neg hieq, hfs i hib]
      apply decide_eq_decide.mpr
      constructor
      · intro hx
        omega
      · intro hx
        rcases Nat.lt_or_ge i (j + 1) with h1 | h1
        · omega
        · exfalso
          apply hieq
          constructor
          · omega
          · omega
  · intro hlt
    have hlt2 : j + 1 < tbl.length := hlt
    have hpb : j + 1 < (processAck 1 sw t (endOf tbl j)).pkts.length := by omega
    show (if j + 1 < tbl.length then some t else none)
        = ((processAck 1 sw t (endOf tbl j)).pkts.getD (j + 1) defaultPacket).firstSent
    rw [List.getD_eq_getElem _ defaultPacket hpb, hfs2 (j + 1) (by omega) hpb,
      if_pos hlt2, if_pos ⟨rfl, hlt2⟩]
  · show (processAck 1 sw t (endOf tbl j)).delays = saw.delays ++ [t - saw.started.getD 0]
    rw [hdel2, hstarted]
    rfl

/-- A timeout iteration preserves the coupling: the windowed engine may
sweep retransmissions, which the abstraction ignores. -/
theorem sawCoupling_step_none (tbl : List (Nat × List Nat)) (retrans poll : Nat)
    (sw : SWState) (saw : SawState) (t : Nat) (R : SawCoupling tbl sw saw) :
    SawCoupling tbl (swStep 1 retrans poll sw (t, none)) (sawStep tbl saw (t, none)) := by
  rw [sawStep_none]
  by_cases hall : sw.pkts.all (fun p => p.isAcked) = true
  · rw [swStep_pkts_all 1 retrans poll sw (t, none) hall]
    exact R
  · have hstep : swStep 1 retrans poll sw (t, none) = timerPhase 1 retrans poll sw t := by
      rw [swStep_pkts_go 1 retrans poll sw (t, none) hall]
      rfl
    rw [hstep]
    exact sawCoupling_keeps tbl sw (timerPhase 1 retrans poll sw t) saw R
      (timerPhase_pkts_length 1 retrans poll sw t)
      (fun i h h2 => timerPhase_keeps 1 retrans poll sw t i h h2)
      (timerPhase_leftEdge 1 retrans poll sw t)
      (timerPhase_sendNext 1 retrans poll sw t)
      (timerPhase_delays 1 retrans poll sw t)

/-- An in-order ACK iteration preserves the coupling. -/
theorem sawCoupling_step_some (tbl : List (Nat × List Nat)) (retrans poll : Nat)
    (hmono : ∀ i j : Nat, i < j → j < tbl.length → endOf tbl i < endOf tbl j)
    (sw : SWState) (saw : SawState) (t : Nat) (f : Int × String)
    (R : SawCoupling tbl sw saw) (hj : saw.segIdx < tbl.length)
    (hmsg : f.2 = "ack") (hval : f.1 = endOf tbl saw.segIdx) :
    SawCoupling tbl (swStep 1 retrans poll sw (t, some f)) (sawStep tbl saw (t, some f)) := by
  have hja : saw.segIdx < sw.pkts.length := by
    rw [R.len_pkts]
    exact hj
  have hun : sw.pkts[saw.segIdx].isAcked = false := by
    rw [R.acked saw.segIdx hja]
    exact decide_eq_false (by omega)
  have hall := not_all_of_unacked sw saw.segIdx hja hun
  rw [sawStep_acc tbl saw t f hj ⟨hmsg, by rw [hval]⟩]
  have hstep : swStep 1 retrans poll sw (t, some f)
      = timerPhase 1 retrans poll (processAck 1 sw t (endOf tbl saw.segIdx)) t := by
    rw [swStep_pkts_go 1 retrans poll sw (t, some f) hall]
    have hrecv : recvPhase 1 sw t (some f) = processAck 1 sw t (endOf tbl saw.segIdx) := by
      show ackDispatch 1 sw t f.1 f.2 = processAck 1 sw t (endOf tbl saw.segIdx)
      unfold ackDispatch
      rw [if_pos hmsg, hval]
    rw [show ((t, some f) : Nat × Option (Int × String)).1 = t from rfl,
      show ((t, some f) : Nat × Option (Int × String)).2 = some f from rfl, hrecv]
  rw [hstep]
  have hcore := sawCoupling_ackStep tbl hmono sw saw saw.segIdx t R rfl hj
  exact sawCoupling_keeps tbl (processAck 1 sw t (endOf tbl saw.segIdx)) _ _ hcore
    (timerPhase_pkts_length 1 retrans poll _ t)
    (fun i h h2 => timerPhase_keeps 1 retrans poll _ t i h h2)
    (timerPhase_leftEdge 1 retrans poll _ t)
    (timerPhase_sendNext 1 retrans poll _ t)
    (timerPhase_delays 1 retrans poll _ t)

/-- The coupling is preserved along any in-order cumulative-ACK trace. -/
theorem sawCoupling_run (tbl : List (Nat × List Nat)) (retrans poll : Nat)
    (hmono : ∀ i j : Nat, i < j → j < tbl.length → endOf tbl i < endOf tbl j) :
    ∀ (evs : List (Nat × Option (Int × String))) (sw : SWState) (saw : SawState),
      SawCoupling tbl sw saw → inOrderFrom tbl saw.segIdx evs = true →
      SawCoupling tbl (evs.foldl (swStep 1 retrans poll) sw) (evs.foldl (sawStep tbl) saw) := by
  intro evs
  induction evs with
  | nil =>
    intro sw saw R _
    exact R
  | cons ev es ih =>
    intro sw saw R hio
    obtain ⟨t, e⟩ := ev
    simp only [List.foldl_cons]
    cases e with
    | none =>
      apply ih _ _ (sawCoupling_step_none tbl retrans poll sw saw t R)
      rw [sawStep_none]
      exact hio
    | some f =>
      have hio2 := hio
      rw [show inOrderFrom tbl saw.segIdx ((t, some f) :: es)
          = (decide (saw.segIdx < tbl.length) && decide (f.2 = "ack")
            && decide (f.1 = endOf tbl saw.segIdx) && inOrderFrom tbl (saw.segIdx + 1) es)
        from rfl] at hio2
      simp only [Bool.and_eq_true, decide_eq_true_eq] at hio2
      obtain ⟨⟨⟨hj, hmsg⟩, hval⟩, hio3⟩ := hio2
      apply ih _ _ (sawCoupling_step_some tbl retrans poll hmono sw saw t f R hj hmsg hval)
      rw [sawStep_acc tbl saw t f hj ⟨hmsg, by rw [hval]⟩]
      exact hio3

/-- C8 is refuted as stated: window size 1 does not coincide with
stop-and-wait over arbitrary received frames.  On a two-segment payload
(bytes `[7, 7]`, chunk size 1) a single ACK echoing offset 2 makes the
windowed engine mark BOTH segments acknowledged at once (cumulative
marking) and never transmit segment 1, while `send_one_packet` accepts it
only for segment 0 and then first-transmits segment 1, which stays
unacknowledged: the final acknowledged states and the per-segment first
transmissions differ. -/
theorem c8_window_one_counterexample :
    ((swRun 1 5 1 0 (mkPackets (segments [7, 7] 1)) [(1, some (2, "ack"))]).pkts.map
        (fun p => p.isAcked) = [true, true] ∧
      (sawRun (segments [7, 7] 1) 0 [(1, some (2, "ack"))]).segIdx = 1) ∧
    ((swRun 1 5 1 0 (mkPackets (segments [7, 7] 1)) [(1, some (2, "ack"))]).pkts.map
        (fun p => p.firstSent) = [some 0, none] ∧
      (sawRun (segments [7, 7] 1) 0 [(1, some (2, "ack"))]).firstAt
        = [some 0, some 1]) := by
  decide

/-- C8 (amended): the equivalence holds exactly on in-order cumulative-ACK
traces, i.e. when the `j`-th received frame echoes precisely the end offset
of segment `j` (timeouts interleaved freely) — the traces a compliant
receiver produces.  Then, for every payload and chunk size, the windowed
engine at window size 1 and the stop-and-wait sender agree on the
per-segment first transmission times, the recorded delay samples, the
number of completed segments, and the acknowledged state of every
segment. -/
theorem c8_window_one_refinement (contents : List Nat) (c retrans poll t0 : Nat)
    (hc : 0 < c) (evs : List (Nat × Option (Int × String)))
    (hio : inOrderFrom (segments contents c) 0 evs = true) :
    (swRun 1 retrans poll t0 (mkPackets (segments contents c)) evs).pkts.map
        (fun p => p.firstSent)
      = (sawRun (segments contents c) t0 evs).firstAt ∧
    (swRun 1 retrans poll t0 (mkPackets (segments contents c)) evs).delays
      = (sawRun (segments contents c) t0 evs).delays ∧
    (swRun 1 retrans poll t0 (mkPackets (segments contents c)) evs).leftEdge
      = (sawRun (segments contents c) t0 evs).segIdx ∧
    ∀ i (h : i < (swRun 1 retrans poll t0 (mkPackets (segments contents c)) evs).pkts.length),
      (swRun 1 retrans poll t0 (mkPackets (segments contents c)) evs).pkts[i].isAcked
        = decide (i < (sawRun (segments contents c) t0 evs).segIdx) := by
  have hchain : (segments contents c).Chain' (fun s u => u.1 = s.1 + s.2.length) :=
    segGo_chain c hc contents.length 0 contents (Nat.le_refl _)
  have hnon : ∀ s ∈ segments contents c, s.2 ≠ [] :=
    fun s hs => segGo_payload_ne_nil c hc contents.length 0 contents s hs
  have hmono := endOf_mono (segments contents c) hchain hnon
  have R := sawCoupling_run (segments contents c) retrans poll hmono evs
    (swInit 1 t0 (mkPackets (segments contents c)))
    (sawInit (segments contents c).length t0)
    (sawCoupling_init (segments contents c) t0) hio
  exact ⟨R.firstAt_eq, R.delays_eq, R.le_eq, R.acked⟩

/-- Witness for the amended C8 on a concrete in-order trace: two segments,
each acknowledged in turn, give identical delay samples. -/
theorem c8_window_one_refinement_witness :
    ((0 : Nat) < 1 ∧
      inOrderFrom (segments [7, 7] 1) 0
        [(1, some (1, "ack")), (3, some (2, "ack"))] = true) ∧
    (swRun 1 5 1 0 (mkPackets (segments [7, 7] 1))
        [(1, some (1, "ack")), (3, some (2, "ack"))]).delays
      = (sawRun (segments [7, 7] 1) 0
        [(1, some (1, "ack")), (3, some (2, "ack"))]).delays :=
  ⟨⟨by decide, by decide⟩,
    (c8_window_one_refinement [7, 7] 1 5 1 0 (by decide)
      [(1, some (1, "ack")), (3, some (2, "ack"))] (by decide)).2.1⟩
